import Mathlib

/-!
Shallow embedding of the multi-caller fan-out / region split / recombination
logic of `bcbio/variation/genotype.py` and the samtools caller adapter of
`bcbio/variation/samtools.py`, together with theorems settling the frozen
claims about them.

Python records are mutable dictionaries; here they are modelled by the
`Data` structure whose fields are the keys this module reads or writes.
Python `config["algorithm"]` sub-dictionaries are kept as association
lists, since the code indexes them by computed string keys.  A dictionary
value is a `PyVal` (`vnone` is Python `None`, `vfalse` is `False`);
dictionary-key absence is `Option` at the lookup.  Operations that can
raise (`KeyError`, `IndexError`, `TypeError` on an unhashable dict key,
failed `assert`) return `Option`/`Except`, with `none`/`error` standing
for the raised exception.
-/

/-- Python values stored in the configuration dictionaries handled here:
`None`, `False`, a string, or a list of strings. -/
inductive PyVal : Type
  | vnone : PyVal
  | vfalse : PyVal
  | vstr : String → PyVal
  | vlist : List String → PyVal
  deriving Repr, DecidableEq

/-- Python truthiness of a `PyVal` (`None`/`False`/`""`/`[]` are falsy). -/
def PyVal.truthy : PyVal → Bool
  | .vnone => false
  | .vfalse => false
  | .vstr s => !s.isEmpty
  | .vlist l => !l.isEmpty

/-- The value of an `align_bam`-like field: absent (`None`), a single path,
a Python list of paths, or a Python tuple of paths.  Lists and tuples are
distinguished because Python hashes tuples but not lists. -/
inductive BamVal : Type
  | bnone : BamVal
  | bpath : String → BamVal
  | blist : List String → BamVal
  | btup : List String → BamVal
  deriving Repr, DecidableEq

/-- Python truthiness of a `BamVal`. -/
def BamVal.truthy : BamVal → Bool
  | .bnone => false
  | .bpath p => !p.isEmpty
  | .blist ps => !ps.isEmpty
  | .btup ps => !ps.isEmpty

/-- Whether the value may be used inside a Python dictionary key
(a list is unhashable and raises `TypeError`). -/
def BamVal.hashable : BamVal → Bool
  | .blist _ => false
  | _ => true

/-- Lookup in a Python dictionary modelled as an association list:
`none` is key absence. -/
def dictGet (m : List (String × PyVal)) (k : String) : Option PyVal :=
  match m with
  | [] => none
  | (k', v) :: t => if k' = k then some v else dictGet t k

/-- Python `d[k] = v`: replace the value in place if the key exists,
otherwise append the binding. -/
def dictSet (m : List (String × PyVal)) (k : String) (v : PyVal) :
    List (String × PyVal) :=
  match m with
  | [] => [(k, v)]
  | (k', v') :: t => if k' = k then (k', v) :: t else (k', v') :: dictSet t k v

/-- Python `d.pop(k, None)`: drop the binding for `k` if present. -/
def dictPop (m : List (String × PyVal)) (k : String) : List (String × PyVal) :=
  match m with
  | [] => []
  | (k', v') :: t => if k' = k then t else (k', v') :: dictPop t k

/-- Python `s.startswith(pre)`, computed on the character lists so it
reduces inside the kernel. -/
def pyStartsWith (s pre : String) : Bool := pre.data.isPrefixOf s.data

/-- Python `s.endswith(suf)`, computed on the character lists. -/
def pyEndsWith (s suf : String) : Bool :=
  suf.data.reverse.isPrefixOf s.data.reverse

/-- `Option String` to the Python value `data.get(key)` evaluates to. -/
def optToPy : Option String → PyVal
  | none => .vnone
  | some s => .vstr s

/-- A genomic region descriptor, a tuple `(name, start, end)` in the source;
the coordinates are kept in their rendered (string) form. -/
structure Region where
  chrom : String
  start : String
  stop : String
  deriving Repr, DecidableEq

/-- One pipeline sample record (the `data` dictionary), restricted to the
fields `genotype.py` reads or writes.  `algorithm` is
`data["config"]["algorithm"]`; `combine_work_bam_out` is
`data["combine"]["work_bam"]["out"]`; `dirs_work` is
`data["dirs"]["work"]`; `batch` is the batch grouping value consumed by
`multi.get_batch_for_key`. -/
structure Data where
  align_bam : BamVal := .bnone
  combine_work_bam_out : Option BamVal := none
  work_bam : Option BamVal := none
  algorithm : List (String × PyVal) := []
  batch : Option String := none
  vrn_file : Option String := none
  vrn_file_orig : Option String := none
  vrn_file_batch : Option String := none
  vrn_file_plus : Option (List (String × PyVal)) := none
  vrn_stats : Option String := none
  validate : Option String := none
  variants : Option (List (List (String × PyVal))) := none
  region : Option (List Region) := none
  region_bams : Option (List (List String)) := none
  dirs_work : String := ""
  description : String := ""
  group : Option (List String) := none
  deriving Repr, DecidableEq

/-- `genotype.get_variantcaller`: when `data.get("align_bam")` is truthy,
return `config.algorithm[key]` (or the default when the key is absent);
otherwise fall through and return Python `None`. -/
def get_variantcaller (d : Data) (key : String) (defaultVal : PyVal) : PyVal :=
  if d.align_bam.truthy then (dictGet d.algorithm key).getD defaultVal
  else .vnone

/-- The normalized joint-caller list computed inside
`handle_multiple_callers`: `get_variantcaller(data, "jointcaller", [])`,
with a scalar string wrapped into a one-element list; the empty list
covers every falsy outcome. -/
def jcallersOf (d : Data) : List String :=
  match get_variantcaller d "jointcaller" (.vlist []) with
  | .vstr s => [s]
  | .vlist l => l
  | _ => []

/-- The jointcaller value installed on an expanded clone with concrete
caller `c` (lines 211-215 of `genotype.py`): the first joint caller whose
identifier starts with `c`, or `False` when none matches. -/
def jointAssign (js : List String) (c : String) : PyVal :=
  match js.filter (fun x => pyStartsWith x c) with
  | [] => .vfalse
  | j :: _ => .vstr j

/-- The algorithm dictionary of an expanded clone, given the
already-stashed dictionary `alg0`: install the concrete caller and, when
expanding by `variantcaller`, partition the configured joint callers
(lines 203-215 of `genotype.py`). -/
def expandCloneAlg (alg0 : List (String × PyVal)) (d : Data) (key c : String) :
    List (String × PyVal) :=
  let alg1 := dictSet alg0 key (.vstr c)
  if key = "variantcaller" then
    let js := jcallersOf d
    if js.isEmpty then alg1
    else dictSet (dictSet alg1 "orig_jointcaller" (.vlist js)) "jointcaller"
      (jointAssign js c)
  else alg1

/-- The body of the per-caller loop of `handle_multiple_callers`: deep-copy
the record, stash the original sequence under `orig_<key>` unless a truthy
stash already exists, then install the concrete caller via
`expandCloneAlg`.  `none` models the `KeyError` raised when the stash
reads an absent key. -/
def expandClone (d : Data) (key : String) (c : String) : Option Data :=
  let alg := d.algorithm
  let stashed : Option (List (String × PyVal)) :=
    if ((dictGet alg ("orig_" ++ key)).getD .vnone).truthy then some alg
    else match dictGet alg key with
      | some v => some (dictSet alg ("orig_" ++ key) v)
      | none => none
  match stashed with
  | none => none
  | some alg0 => some { d with algorithm := expandCloneAlg alg0 d key c }

/-- `List.mapM` over `Option`, written recursively so the first failing
element aborts the traversal (a raised exception in the Python loop). -/
def omap {α β : Type} (f : α → Option β) : List α → Option (List β)
  | [] => some []
  | x :: xs =>
    match f x with
    | none => none
    | some y => (omap f xs).map (fun ys => y :: ys)

/-- `genotype.handle_multiple_callers`: a scalar caller is returned
unchanged in a singleton, a falsy caller value yields no records, and a
caller list yields one clone per identifier. -/
def handle_multiple_callers (d : Data) (key : String) (defaultVal : PyVal) :
    Option (List Data) :=
  match get_variantcaller d key defaultVal with
  | .vstr _ => some [d]
  | .vnone => some []
  | .vfalse => some []
  | .vlist l => if l.isEmpty then some [] else omap (expandClone d key) l

/-- `tz.get_in(("combine", "work_bam", "out"), data, data.get("align_bam"))`. -/
def workBamOf (d : Data) : BamVal :=
  d.combine_work_bam_out.getD d.align_bam

/-- Modelled from the spec: `multi.get_batch_for_key` (the module
`bcbio.pipeline.multi` is not part of this source tree) returns the
record's batch grouping value, the "logical grouping of samples analyzed
together" used as the first component of every regroup key. -/
def get_batch_for_key (d : Data) : Option String := d.batch

/-- The `(batch, work_bam)` grouping key of `combine_multiple_callers`. -/
def combineKey (d : Data) : Option String × BamVal :=
  (get_batch_for_key d, workBamOf d)

/-- The `(variantcaller, jointcaller, data)` triple stored per record by
`combine_multiple_callers` (lines 47-53): the variant caller goes through
`get_variantcaller` (default `"gatk"`), the joint caller is read directly
from the configuration. -/
def tripleOf (d : Data) : PyVal × PyVal × Data :=
  (get_variantcaller d "variantcaller" (.vstr "gatk"),
   (dictGet d.algorithm "jointcaller").getD .vnone,
   d)

/-- Insert a value into an insertion-ordered bucket list (the
`OrderedDict` of grouped records): append to an existing bucket, else
open a new bucket at the end. -/
def addToGroups {κ ν : Type} [DecidableEq κ] (k : κ) (v : ν) :
    List (κ × List ν) → List (κ × List ν)
  | [] => [(k, [v])]
  | (k', vs) :: t =>
    if k' = k then (k', vs ++ [v]) :: t else (k', vs) :: addToGroups k v t

/-- The grouping loop of `combine_multiple_callers`; `none` models the
`TypeError` raised when a list-valued `work_bam` appears inside the
dictionary key. -/
def combineGroupsAux (acc : List ((Option String × BamVal) × List (PyVal × PyVal × Data))) :
    List Data → Option (List ((Option String × BamVal) × List (PyVal × PyVal × Data)))
  | [] => some acc
  | d :: ds =>
    if (workBamOf d).hashable then
      combineGroupsAux (addToGroups (combineKey d) (tripleOf d) acc) ds
    else none

/-- The per-caller result entry assembled at lines 59-67 of `genotype.py`:
start from `vrn_file_plus`, update the fixed keys, and flag `population`
off when a joint caller also ran. -/
def vcEntry (vc jc : PyVal) (d : Data) : List (String × PyVal) :=
  let cur := d.vrn_file_plus.getD []
  let cur := dictSet cur "variantcaller" vc
  let cur := dictSet cur "vrn_file"
    (optToPy (if jc.truthy then d.vrn_file_orig else d.vrn_file))
  let cur := dictSet cur "vrn_file_batch"
    (if jc.truthy then .vnone else optToPy d.vrn_file_batch)
  let cur := dictSet cur "vrn_stats" (optToPy d.vrn_stats)
  let cur := dictSet cur "validate"
    (if jc.truthy then .vnone else optToPy d.validate)
  if jc.truthy then dictSet cur "population" .vfalse else cur

/-- The joint-caller result entry (lines 68-73), with upload suppressed. -/
def jcEntry (jc : PyVal) (d : Data) : List (String × PyVal) :=
  [("variantcaller", jc), ("vrn_file", optToPy d.vrn_file),
   ("vrn_file_batch", optToPy d.vrn_file_batch),
   ("validate", optToPy d.validate), ("do_upload", .vfalse)]

/-- The `"precalled"` placeholder entry (lines 74-78) appended when
neither a variant caller nor a joint caller is set. -/
def precalledEntry (d : Data) : List (String × PyVal) :=
  [("variantcaller", .vstr "precalled"), ("vrn_file", optToPy d.vrn_file),
   ("validate", optToPy d.validate), ("do_upload", .vfalse)]

/-- The entries one `(variantcaller, jointcaller, data)` triple contributes
to `ready_calls` (lines 57-78), in source order. -/
def entriesOfTriple : PyVal × PyVal × Data → List (List (String × PyVal))
  | (vc, jc, d) =>
    (if vc.truthy then [vcEntry vc jc d] else []) ++
    (if jc.truthy then [jcEntry jc d] else []) ++
    (if !jc.truthy && !vc.truthy then [precalledEntry d] else [])

/-- `ready_calls` for one call group. -/
def readyCallsOf (g : List (PyVal × PyVal × Data)) :
    List (List (String × PyVal)) :=
  g.flatMap entriesOfTriple

/-- Python `list.index`: position of the first occurrence, `none` for the
raised `ValueError`. -/
def pyIndex (x : String) : List String → Option Nat
  | [] => none
  | y :: ys => if y = x then some 0 else (pyIndex x ys).map (· + 1)

/-- The sort key `orig_variantcaller_order` (lines 80-84): index of the
entry's caller in the original variant-caller list, falling back to its
index in the original joint-caller list; `none` models the uncaught
exceptions of every other case. -/
def origOrderKey (alg : List (String × PyVal)) (e : List (String × PyVal)) :
    Option Nat :=
  match dictGet e "variantcaller" with
  | some (.vstr s) =>
    match dictGet alg "orig_variantcaller" with
    | some (.vlist l) =>
      match pyIndex s l with
      | some i => some i
      | none =>
        match dictGet alg "orig_jointcaller" with
        | some (.vlist l2) => pyIndex s l2
        | _ => none
    | _ => none
  | _ => none

/-- Key ordering used to sort `ready_calls`; sorting key/entry pairs with a
stable sort models Python's `sorted(..., key=...)`. -/
def pairLe (a b : Nat × List (String × PyVal)) : Prop := a.1 ≤ b.1

instance : DecidableRel pairLe := fun a b => Nat.decLe a.1 b.1

instance : IsTotal (Nat × List (String × PyVal)) pairLe :=
  ⟨fun a b => Nat.le_total a.1 b.1⟩

instance : IsTrans (Nat × List (String × PyVal)) pairLe :=
  ⟨fun _ _ _ hab hbc => Nat.le_trans hab hbc⟩

/-- Drop the transient staging fields (lines 92-95). -/
def stripTransient (d : Data) : Data :=
  { d with vrn_file_batch := none, vrn_file_orig := none,
           vrn_file_plus := none, vrn_stats := none }

/-- Assemble the final record of one call group (lines 55-96):
`ready_calls` in encounter order, sorted by `origOrderKey` when more than
one entry resulted and an `orig_variantcaller` stash exists, in which case
the stashed caller lists are restored as the active configuration. -/
def finalizeGroup (g : List (PyVal × PyVal × Data)) : Option Data :=
  match g with
  | [] => none
  | (_, _, first) :: _ =>
    let ready := readyCallsOf g
    if ready.length > 1 && (dictGet first.algorithm "orig_variantcaller").isSome then
      match omap (fun e => (origOrderKey first.algorithm e).map (fun k => (k, e))) ready with
      | none => none
      | some keyed =>
        let sorted := (List.insertionSort pairLe keyed).map (·.2)
        let alg1 :=
          match dictGet first.algorithm "orig_variantcaller" with
          | some v =>
            dictSet (dictPop first.algorithm "orig_variantcaller") "variantcaller" v
          | none => first.algorithm
        let alg2 :=
          match dictGet alg1 "orig_jointcaller" with
          | some v => dictSet (dictPop alg1 "orig_jointcaller") "jointcaller" v
          | none => alg1
        some (stripTransient { first with variants := some sorted, algorithm := alg2 })
    else
      some (stripTransient { first with variants := some ready })

/-- `genotype.combine_multiple_callers`, on the unwrapped records (the
source passes each record wrapped in a singleton list and returns the
finals wrapped the same way). -/
def combine_multiple_callers (samples : List Data) : Option (List Data) :=
  match combineGroupsAux [] samples with
  | none => none
  | some groups => omap (fun g => finalizeGroup g.2) groups

/-- The work-BAM identity used by `_collapse_by_bam_variantcaller`
(lines 132-135): same lookup as the combiner, but a list value is
normalized to a tuple before entering the key. -/
def collapseWorkBam (d : Data) : BamVal :=
  match workBamOf d with
  | .blist ps => .btup ps
  | w => w

/-- The `(batch, work_bam, variantcaller)` collapse key (line 136). -/
def collapseKey (d : Data) : Option String × BamVal × PyVal :=
  (get_batch_for_key d, collapseWorkBam d,
   get_variantcaller d "variantcaller" (.vstr "gatk"))

/-- The collapse key is hashable unless the variant-caller value is a
list (the work-BAM component has already been tuple-normalized). -/
def collapseKeyHashable (d : Data) : Bool :=
  match get_variantcaller d "variantcaller" (.vstr "gatk") with
  | .vlist _ => false
  | _ => true

/-- Grouping loop of `_collapse_by_bam_variantcaller`. -/
def collapseGroupsAux (acc : List ((Option String × BamVal × PyVal) × List Data)) :
    List Data → Option (List ((Option String × BamVal × PyVal) × List Data))
  | [] => some acc
  | d :: ds =>
    if collapseKeyHashable d then
      collapseGroupsAux (addToGroups (collapseKey d) d acc) ds
    else none

/-- Reduce one collapse group to its representative (lines 142-148): keep
the first record, strip `region`/`region_bams`, and additionally drop
`work_bam` when the per-region BAM lists show more than one input. -/
def collapseFinalize : List Data → Option Data
  | [] => none
  | cur :: _ =>
    let cur' := { cur with region := none, region_bams := none }
    match cur.region_bams with
    | some (xs :: _) =>
      if xs.length > 1 then some { cur' with work_bam := none } else some cur'
    | _ => some cur'

/-- `genotype._collapse_by_bam_variantcaller`, on unwrapped records. -/
def collapse_by_bam_variantcaller (samples : List Data) : Option (List Data) :=
  match collapseGroupsAux [] samples with
  | none => none
  | some groups => omap (fun g => collapseFinalize g.2) groups

/-- `os.path.join` for the relative path fragments built here. -/
def pathJoin (a b : String) : String := a ++ "/" ++ b

/-- Modelled from the spec: `region.to_safestr` (the module
`bcbio.pipeline.region` is not part of this source tree) renders a region
descriptor as the filesystem-safe string `<name>_<start>_<end>` used in
split output filenames. -/
def to_safestr (r : Region) : String :=
  r.chrom ++ "_" ++ r.start ++ "_" ++ r.stop

/-- One `(region, work_bams, out_region_file)` split work unit. -/
structure WorkUnit where
  region : Region
  workBams : List String
  outFile : String
  deriving Repr, DecidableEq

/-- The name a split sample is filed under: `data["group"][0]` when a
group is present, else `data["description"]`. -/
def splitName (d : Data) : Option String :=
  match d.group with
  | some g => g.head?
  | none => some d.description

/-- The per-region body of `_split_by_ready_regions._do_work`
(lines 109-121): resolve the per-region BAMs (a singleton BAM list is used
for every region, otherwise entry `i` is taken), check they exist on the
filesystem `fs`, and build the region output path.  `none` models the
`IndexError`/failed `assert`. -/
def splitRegionUnit (fs : String → Bool) (outDir name ext : String)
    (rbs : List (List String)) (i : Nat) (r : Region) : Option WorkUnit :=
  let outRegionFile :=
    pathJoin (pathJoin outDir r.chrom) (name ++ "-" ++ to_safestr r ++ ext)
  match omap (fun xs => if xs.length == 1 then xs.head? else xs.get? i) rbs with
  | none => none
  | some workBams =>
    if workBams.all fs then some ⟨r, workBams, outRegionFile⟩ else none

/-- `omap` with the element index passed along. -/
def omapIdxAux {α β : Type} (f : Nat → α → Option β) (i : Nat) :
    List α → Option (List β)
  | [] => some []
  | x :: xs =>
    match f i x with
    | none => none
    | some y => (omapIdxAux f (i + 1) xs).map (fun ys => y :: ys)

/-- Enumerated traversal used for the region loop. -/
def omapIdx {α β : Type} (f : Nat → α → Option β) (l : List α) : Option (List β) :=
  omapIdxAux f 0 l

/-- `genotype._split_by_ready_regions`: the returned `_do_work` closure.
A record without a `region` field is not split (output `(None, [])`);
otherwise each region becomes one work unit with output path
`<work-dir>/<ext-dir>/<region-name>/<name>-<safestr><ext>` and the whole
sample's combined output is `<work-dir>/<ext-dir>/<name><ext>`.
The unused `file_key` parameter of the source is kept. -/
def _split_by_ready_regions (ext : String) (fileKey : String)
    (dirExtFn : Data → String) (fs : String → Bool) (d : Data) :
    Option (Option String × List WorkUnit) :=
  match d.region with
  | none => some (none, [])
  | some rs =>
    match splitName d with
    | none => none
    | some name =>
      let outDir := pathJoin d.dirs_work (dirExtFn d)
      let outFile := pathJoin outDir (name ++ ext)
      match d.region_bams with
      | none => none
      | some rbs =>
        match omapIdx (fun i r => splitRegionUnit fs outDir name ext rbs i r) rs with
        | none => none
        | some parts => some (some outFile, parts)

/-!  The samtools caller adapter (`bcbio/variation/samtools.py`).
External collaborators (`bam.index`, `subset_variant_regions`,
`write_empty_vcf`, the spawned pipeline, `annotate_nongatk_vcf`) are
tracked as effects or passed in as opaque functions; the filesystem is the
predicate `fs`. -/

/-- Observable side effects of the samtools adapter. -/
inductive SamEffect : Type
  | indexBam : String → SamEffect
  | subsetRegions : Option String → String → SamEffect
  | writeEmptyVcf : String → SamEffect
  | callFn : String → SamEffect
  | runCmd : String → SamEffect
  | annotate : String → SamEffect
  deriving Repr, DecidableEq

/-- Result of `subset_variant_regions`: a string (file or region spec) or
any other value (the `isinstance(..., basestring)` test). -/
inductive TargetRegions : Type
  | trStr : String → TargetRegions
  | trOther : TargetRegions
  deriving Repr, DecidableEq

/-- The configuration slice `samtools.py` reads.  `metdata_batch` models
`config["metdata"]["batch"]` (the key is spelled that way in the source);
`none` makes the access raise. -/
structure SamCfg where
  variant_regions : Option String := none
  metdata_batch : Option String := none
  deriving Repr, DecidableEq

/-- `os.path.splitext(s)[0]`: drop the text from the last dot on. -/
def stripExt (s : String) : String :=
  match s.data.reverse.dropWhile (fun c => c ≠ '.') with
  | [] => s
  | _ :: rest => ⟨rest.reverse⟩

/-- Default output-path resolution of `shared_variantcall` (lines 22-26):
paired analyses name the file after the batch (via the misspelled
`metdata` key), others after the first BAM. -/
def resolveOutFile (cfg : SamCfg) (isPaired : Bool) (alignBams : List String)
    (outFileOpt : Option String) : Option String :=
  match outFileOpt with
  | some f => some f
  | none =>
    if isPaired then cfg.metdata_batch.map (fun b => b ++ "-paired-variants.vcf.gz")
    else alignBams.head?.map (fun b => stripExt b ++ "-variants.vcf.gz")

/-- `samtools.shared_variantcall`: skip indexing, region subsetting,
empty-VCF writing and the caller invocation when the output already
exists; always annotate and return the annotated path. -/
def shared_variantcall (fs : String → Bool) (cfg : SamCfg)
    (subsetFn : Option String → Option String → String → TargetRegions)
    (annFn : String → String) (isPaired : Bool) (alignBams : List String)
    (regionOpt : Option String) (outFileOpt : Option String) :
    Option (List SamEffect × String) :=
  match resolveOutFile cfg isPaired alignBams outFileOpt with
  | none => none
  | some outFile =>
    if fs outFile then some ([SamEffect.annotate outFile], annFn outFile)
    else
      match alignBams with
      | [] => none
      | _ =>
        let target := subsetFn cfg.variant_regions regionOpt outFile
        let callEffs :=
          match cfg.variant_regions, target with
          | some _, .trStr t =>
            if !fs t then [SamEffect.writeEmptyVcf outFile]
            else [SamEffect.callFn outFile]
          | _, _ => [SamEffect.callFn outFile]
        some (alignBams.map SamEffect.indexBam ++
                [SamEffect.subsetRegions cfg.variant_regions outFile] ++
                callEffs ++ [SamEffect.annotate outFile],
              annFn outFile)

/-- One component of a `distutils` `LooseVersion`: a numeric run or an
alphabetic/other run. -/
inductive VComp : Type
  | num : Nat → VComp
  | alpha : String → VComp
  deriving Repr, DecidableEq

/-- Tokenizer step for `LooseVersion`: digits accumulate into numbers,
dots separate, any other run stays a string component. -/
def stepComp (st : List VComp × Option VComp) (c : Char) :
    List VComp × Option VComp :=
  let done := st.1
  let cur := st.2
  let flush := fun (acc : List VComp) (cu : Option VComp) =>
    match cu with
    | none => acc
    | some v => acc ++ [v]
  if c = '.' then (flush done cur, none)
  else if c.isDigit then
    match cur with
    | some (VComp.num n) => (done, some (.num (n * 10 + (c.toNat - '0'.toNat))))
    | _ => (flush done cur, some (.num (c.toNat - '0'.toNat)))
  else
    match cur with
    | some (VComp.alpha s) => (done, some (.alpha (s.push c)))
    | _ => (flush done cur, some (.alpha (String.singleton c)))

/-- `LooseVersion` parsing of a version string into components. -/
def looseParse (s : String) : List VComp :=
  let st := s.data.foldl stepComp ([], none)
  match st.2 with
  | none => st.1
  | some v => st.1 ++ [v]

/-- Python 2 comparison of version components: numbers by value, strings
lexicographically, and every number below every string. -/
def vcompLt : VComp → VComp → Bool
  | .num a, .num b => a < b
  | .alpha a, .alpha b => decide (a < b)
  | .num _, .alpha _ => true
  | .alpha _, .num _ => false

/-- Component equality as Python 2 `==` sees it. -/
def vcompEq : VComp → VComp → Bool
  | .num a, .num b => a == b
  | .alpha a, .alpha b => a == b
  | _, _ => false

/-- Python list `<=` on component lists (lexicographic, a strict prefix is
smaller). -/
def vlistLE : List VComp → List VComp → Bool
  | [], _ => true
  | _ :: _, [] => false
  | x :: xs, y :: ys =>
    if vcompLt x y then true
    else if vcompEq x y then vlistLE xs ys
    else false

/-- Python list `<` on component lists. -/
def vlistLT : List VComp → List VComp → Bool
  | [], [] => false
  | [], _ :: _ => true
  | _ :: _, [] => false
  | x :: xs, y :: ys =>
    if vcompLt x y then true
    else if vcompEq x y then vlistLT xs ys
    else false

/-- `LooseVersion(a) <= LooseVersion(b)`. -/
def looseVersionLE (a b : String) : Bool := vlistLE (looseParse a) (looseParse b)

/-- `LooseVersion(a) < LooseVersion(b)`. -/
def looseVersionLT (a b : String) : Bool := vlistLT (looseParse a) (looseParse b)

/-- `samtools.prep_mpileup`: the pileup command line. -/
def prep_mpileup (samtoolsProg refFile : String) (maxReadDepth : String)
    (targetRegionsStr : Option String) (targetIsFile : Bool) (wantBcf : Bool)
    (alignBams : List String) : String :=
  let cl := [samtoolsProg, "mpileup", "-f", refFile, "-d", maxReadDepth,
             "-L", maxReadDepth, "-m", "3", "-F", "0.0002"]
  let cl := if wantBcf then cl ++ ["-t", "DP", "-t", "SP", "-u", "-g"] else cl
  let cl :=
    match targetRegionsStr with
    | none => cl
    | some str => cl ++ [if targetIsFile then "-l" else "-r", str]
  String.intercalate " " (cl ++ alignBams)

/-- `samtools._call_variants_samtools`: raise on a samtools at or below
0.1.19 before running anything; otherwise spawn the mpileup/bcftools/sed
pipeline.  `regionToGatkFn` stands in for `bamprep.region_to_gatk` and
`fs` for `os.path.isfile`. -/
def call_variants_samtools (fs : String → Bool)
    (samtoolsProg bcftoolsProg : String)
    (samtoolsVersion bcftoolsVersion : String)
    (regionToGatkFn : String → String) (alignBams : List String)
    (refFile : String) (targetRegions : Option String) (outFile : String) :
    Except String (List SamEffect) :=
  let strRegions := targetRegions.map regionToGatkFn
  let mpileup := prep_mpileup samtoolsProg refFile "1000" strRegions
    (match strRegions with | some s => fs s | none => false) true alignBams
  if looseVersionLE samtoolsVersion "0.1.19" then
    Except.error "samtools calling not supported with pre-1.0 samtools"
  else
    let compressCmd := if pyEndsWith outFile ".gz" then "| bgzip -c" else ""
    let cmd := mpileup ++ " | " ++ bcftoolsProg ++ " call -v -m - " ++
      "| sed 's/,Version=3>/>/'" ++ "| sed 's/Number=R/Number=./'" ++
      compressCmd ++ " > " ++ outFile
    Except.ok [SamEffect.runCmd cmd]

/-- Records for the C6 witness: a scalar caller, an explicit `False`
caller, and a two-caller list. -/
def c6wStr : Data where
  align_bam := .bpath "a.bam"
  algorithm := [("variantcaller", PyVal.vstr "freebayes")]

/-- C6 witness record with `variantcaller: False`. -/
def c6wFalse : Data where
  align_bam := .bpath "a.bam"
  algorithm := [("variantcaller", PyVal.vfalse)]

/-- C6 witness record with a caller list. -/
def c6wList : Data where
  align_bam := .bpath "a.bam"
  algorithm := [("variantcaller", PyVal.vlist ["samtools", "freebayes"])]

/-- A record whose `orig_variantcaller` stash is already set, for the C2
witness. -/
def c2wData : Data where
  align_bam := .bpath "x.bam"
  algorithm := [("variantcaller", PyVal.vlist ["freebayes", "samtools"]),
                ("orig_variantcaller", PyVal.vlist ["a", "b"])]

/-- The set of caller identifiers a configuration value denotes (a scalar
is a one-element set, `False`/`None` none). -/
def pyValCallers : PyVal → List String
  | .vstr s => [s]
  | .vlist l => l
  | _ => []

/-- Record with one variant caller and two matching joint callers, for the
C3 counterexample. -/
def c3cData : Data where
  align_bam := .bpath "x.bam"
  algorithm := [("variantcaller", PyVal.vlist ["a"]),
                ("jointcaller", PyVal.vlist ["a1", "a2"])]

/-- Record with two variant callers and one joint caller, for the C3
witness. -/
def c3wData : Data where
  align_bam := .bpath "x.bam"
  algorithm := [("variantcaller", PyVal.vlist ["gatk", "samtools"]),
                ("jointcaller", PyVal.vlist ["samtools-joint"])]

/-- Record with a falsy `align_bam` but a configured joint caller, for the
C10 counterexample. -/
def c10cData : Data where
  align_bam := .bnone
  algorithm := [("variantcaller", PyVal.vstr "gatk"),
                ("jointcaller", PyVal.vstr "gj")]
  vrn_file := some "x.vcf"

/-- Record with a falsy `align_bam` and no joint caller, for the C10
witness. -/
def c10wData : Data where
  align_bam := .bnone
  algorithm := [("variantcaller", PyVal.vlist ["gatk", "samtools"])]
  vrn_file := some "x.vcf"

/-- Base record (a concrete scalar caller) for the C4 counterexample and
witness; the BAM field is varied between a list and a tuple. -/
def c4Base : Data where
  algorithm := [("variantcaller", PyVal.vstr "samtools")]

/-- `Except.isOk` for the adapter's result. -/
def exceptIsOk {ε α : Type} : Except ε α → Bool
  | .ok _ => true
  | .error _ => false

/-- The per-region output path pattern of the Region Splitter:
`<work-dir>/<ext-dir>/<region-name>/<sample-name>-<region-safe-string><ext>`. -/
def regionOutPath (d : Data) (dirExtFn : Data → String) (name ext : String)
    (r : Region) : String :=
  pathJoin (pathJoin (pathJoin d.dirs_work (dirExtFn d)) r.chrom)
    (name ++ "-" ++ to_safestr r ++ ext)

/-- Record with the same region listed twice, for the C5 counterexample. -/
def c5cData : Data where
  region := some [⟨"chr1", "1", "2"⟩, ⟨"chr1", "1", "2"⟩]
  region_bams := some [["b.bam"]]
  dirs_work := "w"
  description := "s"

/-- Record with two distinct regions, for the C5 witness. -/
def c5wData : Data where
  region := some [⟨"chr1", "1", "2"⟩, ⟨"chr2", "10", "50"⟩]
  region_bams := some [["b.bam"], ["x.bam", "y.bam"]]
  dirs_work := "w"
  description := "s"

/-- The caller identifier installed on an expanded clone (auxiliary
accessor used in the ordering proof). -/
def callerOf (x : Data) : String :=
  match dictGet x.algorithm "variantcaller" with
  | some (.vstr s) => s
  | _ => ""

/-- The record `handle_multiple_callers` produces for caller `c` when the
original caller list is `cs`, no joint caller is configured, and no stash
existed yet. -/
def expandedClone (d : Data) (cs : List String) (c : String) : Data :=
  { d with algorithm := dictSet (dictSet d.algorithm "orig_variantcaller" (.vlist cs)) "variantcaller" (.vstr c) }

/-- Record with two callers and one joint caller, for the C1
counterexample. -/
def c1cData : Data where
  align_bam := .bpath "x.bam"
  algorithm := [("variantcaller", PyVal.vlist ["a", "b"]),
                ("jointcaller", PyVal.vlist ["b-j"])]

/-- Record with two callers and no joint caller, for the C1 witness
(the spec's scenario S1). -/
def c1wData : Data where
  align_bam := .bpath "x.bam"
  batch := some "B1"
  algorithm := [("variantcaller", PyVal.vlist ["samtools", "freebayes"])]

/-- The `ready_calls` entry contributed by one expanded clone `x` of a
no-joint-caller sample `d` (auxiliary for the ordering proof). -/
def cloneEntry (d x : Data) : List (String × PyVal) :=
  vcEntry (.vstr (callerOf x)) ((dictGet d.algorithm "jointcaller").getD .vnone) x

/-- The sort key a clone entry receives from `origOrderKey` when the
original caller list is `cs` (auxiliary for the ordering proof). -/
def entryKey (cs : List String) (e : List (String × PyVal)) : Nat :=
  match dictGet e "variantcaller" with
  | some (.vstr s) => (pyIndex s cs).getD 0
  | _ => 0

/-! ### Basic lemmas about the dictionary and traversal operations -/

theorem dictGet_dictSet_self (m : List (String × PyVal)) (k : String) (v : PyVal) :
    dictGet (dictSet m k v) k = some v := by
  induction m with
  | nil => simp [dictSet, dictGet]
  | cons p t ih =>
    obtain ⟨k', v'⟩ := p
    by_cases h : k' = k
    · simp [dictSet, dictGet, h]
    · simp [dictSet, dictGet, h, ih]

theorem dictGet_dictSet_ne (m : List (String × PyVal)) (k k' : String) (v : PyVal)
    (h : k' ≠ k) : dictGet (dictSet m k' v) k = dictGet m k := by
  induction m with
  | nil => simp [dictSet, dictGet, h]
  | cons p t ih =>
    obtain ⟨k₀, v₀⟩ := p
    by_cases h0 : k₀ = k'
    · subst h0
      simp [dictSet, dictGet, h]
    · have h' : k ≠ k' := Ne.symm h
      by_cases h1 : k₀ = k <;> simp [dictSet, dictGet, h0, h1, ih, h']

theorem orig_key_ne (key : String) : "orig_" ++ key ≠ key := by
  intro h
  have hl := congrArg String.length h
  rw [String.length_append] at hl
  have h5 : ("orig_" : String).length = 5 := rfl
  rw [h5] at hl
  omega

theorem omap_eq_map {α β : Type} (f : α → Option β) (g : α → β) (l : List α)
    (h : ∀ x ∈ l, f x = some (g x)) : omap f l = some (l.map g) := by
  induction l with
  | nil => simp [omap]
  | cons x xs ih =>
    have hx := h x (List.mem_cons_self x xs)
    have ht := ih (fun y hy => h y (List.mem_cons_of_mem x hy))
    simp [omap, hx, ht]

theorem omap_mem {α β : Type} (f : α → Option β) (l : List α) (out : List β)
    (h : omap f l = some out) : ∀ y ∈ out, ∃ x ∈ l, f x = some y := by
  induction l generalizing out with
  | nil =>
    simp [omap] at h
    subst h
    simp
  | cons x xs ih =>
    simp only [omap] at h
    cases hx : f x with
    | none => rw [hx] at h; exact absurd h (by simp)
    | some y0 =>
      rw [hx] at h
      cases ht : omap f xs with
      | none => rw [ht] at h; exact absurd h (by simp)
      | some ys =>
        rw [ht] at h
        have h' : y0 :: ys = out := by simpa using h
        subst h'
        intro y hy
        rcases List.mem_cons.mp hy with h1 | h2
        · exact ⟨x, List.mem_cons_self x xs, h1 ▸ hx⟩
        · obtain ⟨x', hx', hfx'⟩ := ih ys ht y h2
          exact ⟨x', List.mem_cons_of_mem x hx', hfx'⟩

/-! ### Shape lemmas for `expandClone` -/

theorem dictGet_expandCloneAlg_self (alg0 : List (String × PyVal)) (d : Data)
    (key c : String) :
    dictGet (expandCloneAlg alg0 d key c) key = some (.vstr c) := by
  unfold expandCloneAlg
  by_cases hk : key = "variantcaller"
  · subst hk
    by_cases hj : (jcallersOf d).isEmpty
    · simp [hj, dictGet_dictSet_self]
    · simp only [hj, eq_self_iff_true, if_true, Bool.false_eq_true, if_false]
      rw [dictGet_dictSet_ne _ _ _ _ (by decide),
          dictGet_dictSet_ne _ _ _ _ (by decide), dictGet_dictSet_self]
  · simp [hk, dictGet_dictSet_self]

theorem dictGet_expandCloneAlg_ne (alg0 : List (String × PyVal)) (d : Data)
    (key c k' : String) (h1 : k' ≠ key)
    (h2 : key = "variantcaller" → k' ≠ "jointcaller" ∧ k' ≠ "orig_jointcaller") :
    dictGet (expandCloneAlg alg0 d key c) k' = dictGet alg0 k' := by
  unfold expandCloneAlg
  by_cases hk : key = "variantcaller"
  · obtain ⟨h2j, h2oj⟩ := h2 hk
    subst hk
    by_cases hj : (jcallersOf d).isEmpty
    · simp only [hj, eq_self_iff_true, if_true]
      exact dictGet_dictSet_ne _ _ _ _ (Ne.symm h1)
    · simp only [hj, eq_self_iff_true, if_true, Bool.false_eq_true, if_false]
      rw [dictGet_dictSet_ne _ _ _ _ (Ne.symm h2j),
          dictGet_dictSet_ne _ _ _ _ (Ne.symm h2oj),
          dictGet_dictSet_ne _ _ _ _ (Ne.symm h1)]
  · simp only [hk, if_false]
    exact dictGet_dictSet_ne _ _ _ _ (Ne.symm h1)

theorem expandClone_eq_of_truthy (d : Data) (key c : String)
    (h : ((dictGet d.algorithm ("orig_" ++ key)).getD .vnone).truthy = true) :
    expandClone d key c = some { d with algorithm := expandCloneAlg d.algorithm d key c } := by
  simp [expandClone, h]

theorem expandClone_eq_of_slot (d : Data) (key c : String) (v : PyVal)
    (h : ((dictGet d.algorithm ("orig_" ++ key)).getD .vnone).truthy = false)
    (hslot : dictGet d.algorithm key = some v) :
    expandClone d key c =
      some { d with algorithm :=
        expandCloneAlg (dictSet d.algorithm ("orig_" ++ key) v) d key c } := by
  simp [expandClone, h, hslot]

theorem expandClone_orig_stash (d : Data) (key c : String) (x : Data)
    (h : ((dictGet d.algorithm ("orig_" ++ key)).getD .vnone).truthy = true)
    (hx : expandClone d key c = some x) :
    dictGet x.algorithm ("orig_" ++ key) = dictGet d.algorithm ("orig_" ++ key) := by
  rw [expandClone_eq_of_truthy d key c h] at hx
  simp only [Option.some.injEq] at hx
  subst hx
  refine dictGet_expandCloneAlg_ne _ _ _ _ _ (orig_key_ne _) ?_
  intro hk
  subst hk
  exact ⟨by decide, by decide⟩

/-- C2: once the `orig_<key>` provenance stash is truthy, re-expanding on
the same key preserves it unchanged in every returned record. -/
theorem orig_stash_not_overwritten (d : Data) (key : String) (dv : PyVal)
    (h : ((dictGet d.algorithm ("orig_" ++ key)).getD .vnone).truthy = true) :
    ∀ out, handle_multiple_callers d key dv = some out →
      ∀ x ∈ out, dictGet x.algorithm ("orig_" ++ key) =
        dictGet d.algorithm ("orig_" ++ key) := by
  intro out hout x hx
  unfold handle_multiple_callers at hout
  cases hgv : get_variantcaller d key dv with
  | vstr s =>
    rw [hgv] at hout
    simp only [Option.some.injEq] at hout
    subst hout
    simp only [List.mem_singleton] at hx
    subst hx
    rfl
  | vnone =>
    rw [hgv] at hout
    simp only [Option.some.injEq] at hout
    subst hout
    simp at hx
  | vfalse =>
    rw [hgv] at hout
    simp only [Option.some.injEq] at hout
    subst hout
    simp at hx
  | vlist l =>
    rw [hgv] at hout
    by_cases hl : l.isEmpty
    · simp only [hl, if_true, Option.some.injEq] at hout
      subst hout
      simp at hx
    · simp only [hl, if_false] at hout
      obtain ⟨c, _, hc⟩ := omap_mem _ _ _ hout x hx
      exact expandClone_orig_stash d key c x h hc

/-- C6: `handle_multiple_callers` is a three-way case split on the caller
value computed from the configuration: a scalar string returns the record
itself in a singleton, an absent (`None`) or `False` value returns the
empty list, and a non-empty identifier list stored in the configuration
returns one copy per identifier with that identifier installed as the
concrete caller and every other record field unchanged. -/
theorem handle_multiple_callers_three_way
    (d : Data) (key : String) (dv : PyVal) (s : String) (l : List String) :
    (get_variantcaller d key dv = .vstr s →
      handle_multiple_callers d key dv = some [d]) ∧
    ((get_variantcaller d key dv = .vnone ∨ get_variantcaller d key dv = .vfalse) →
      handle_multiple_callers d key dv = some []) ∧
    (dictGet d.algorithm key = some (.vlist l) → l ≠ [] →
      d.align_bam.truthy = true →
      ∃ out, handle_multiple_callers d key dv = some out ∧
        List.Forall₂ (fun c x => dictGet x.algorithm key = some (.vstr c) ∧
          { x with algorithm := d.algorithm } = d) l out) := by
  refine ⟨?_, ?_, ?_⟩
  · intro h
    unfold handle_multiple_callers
    rw [h]
  · rintro (h | h) <;> (unfold handle_multiple_callers; rw [h])
  · intro hslot hne htr
    have hgv : get_variantcaller d key dv = .vlist l := by
      rw [get_variantcaller, htr]
      simp [hslot]
    have hle : l.isEmpty = false := by
      cases l with
      | nil => exact absurd rfl hne
      | cons a t => rfl
    by_cases ho : ((dictGet d.algorithm ("orig_" ++ key)).getD .vnone).truthy
    · refine ⟨l.map (fun c => { d with algorithm := expandCloneAlg d.algorithm d key c }),
        ?_, ?_⟩
      · unfold handle_multiple_callers
        rw [hgv]
        simp only [hle, Bool.false_eq_true, if_false]
        exact omap_eq_map _ _ _ (fun c _ => expandClone_eq_of_truthy d key c ho)
      · rw [List.forall₂_map_right_iff]
        rw [List.forall₂_same]
        intro c _
        exact ⟨dictGet_expandCloneAlg_self _ _ _ _, rfl⟩
    · have ho' : ((dictGet d.algorithm ("orig_" ++ key)).getD .vnone).truthy = false :=
        Bool.not_eq_true _ ▸ Bool.of_not_eq_true ho
      refine ⟨l.map (fun c => { d with algorithm := expandCloneAlg (dictSet d.algorithm ("orig_" ++ key) (.vlist l)) d key c }), ?_, ?_⟩
      · unfold handle_multiple_callers
        rw [hgv]
        simp only [hle, Bool.false_eq_true, if_false]
        exact omap_eq_map _ _ _
          (fun c _ => expandClone_eq_of_slot d key c (.vlist l) ho' hslot)
      · rw [List.forall₂_map_right_iff]
        rw [List.forall₂_same]
        intro c _
        exact ⟨dictGet_expandCloneAlg_self _ _ _ _, rfl⟩




/-- C6 witness: the three cases at concrete records. -/
theorem handle_multiple_callers_three_way_witness :
    handle_multiple_callers c6wStr "variantcaller" .vnone = some [c6wStr] ∧
    handle_multiple_callers c6wFalse "variantcaller" .vnone = some [] ∧
    ∃ out, handle_multiple_callers c6wList "variantcaller" .vnone = some out ∧
      List.Forall₂ (fun c x => dictGet x.algorithm "variantcaller" = some (.vstr c) ∧
        { x with algorithm := c6wList.algorithm } = c6wList)
        ["samtools", "freebayes"] out :=
  ⟨(handle_multiple_callers_three_way c6wStr "variantcaller" .vnone "freebayes"
      ["samtools", "freebayes"]).1 (by decide),
   (handle_multiple_callers_three_way c6wFalse "variantcaller" .vnone "freebayes"
      ["samtools", "freebayes"]).2.1 (Or.inr (by decide)),
   (handle_multiple_callers_three_way c6wList "variantcaller" .vnone "freebayes"
      ["samtools", "freebayes"]).2.2 (by decide) (by decide) (by decide)⟩


/-- C2 witness: a record whose `orig_variantcaller` stash is already the
list `["a", "b"]` keeps it through a second expansion. -/
theorem orig_stash_not_overwritten_witness :
    ((dictGet c2wData.algorithm ("orig_" ++ "variantcaller")).getD .vnone).truthy = true ∧
    (∀ out, handle_multiple_callers c2wData "variantcaller" .vnone = some out →
      ∀ x ∈ out, dictGet x.algorithm ("orig_" ++ "variantcaller") =
        dictGet c2wData.algorithm ("orig_" ++ "variantcaller")) :=
  ⟨by decide, orig_stash_not_overwritten c2wData "variantcaller" .vnone (by decide)⟩

/-! ### C3: joint-caller partitioning during expansion -/

theorem dictGet_expandCloneAlg_joint (alg0 : List (String × PyVal)) (d : Data)
    (c : String) (hne : (jcallersOf d).isEmpty = false) :
    dictGet (expandCloneAlg alg0 d "variantcaller" c) "jointcaller" =
      some (jointAssign (jcallersOf d) c) ∧
    dictGet (expandCloneAlg alg0 d "variantcaller" c) "orig_jointcaller" =
      some (.vlist (jcallersOf d)) := by
  unfold expandCloneAlg
  simp only [eq_self_iff_true, if_true, hne, Bool.false_eq_true, if_false]
  exact ⟨dictGet_dictSet_self _ _ _,
    by rw [dictGet_dictSet_ne _ _ _ _ (by decide), dictGet_dictSet_self]⟩

/-- C3 counterexample: with caller list `["a"]` and joint callers
`["a1", "a2"]`, both joint callers start with `"a"`, yet the expanded
clone receives only `"a1"`, not the full matching set. -/
theorem jointcaller_partition_first_match_cex :
    (handle_multiple_callers c3cData "variantcaller" .vnone).map
        (List.map (fun x => pyValCallers ((dictGet x.algorithm "jointcaller").getD .vnone))) =
      some [["a1"]] ∧
    ["a1", "a2"].filter (fun j => pyStartsWith j "a") = ["a1", "a2"] ∧
    (["a1"] : List String) ≠ ["a1", "a2"] := by decide

/-- C3 amended: when expanding by `variantcaller` with a non-empty joint
caller list `js`, every returned clone for caller `c` has its jointcaller
configuration set to the FIRST element of `js` whose identifier starts
with `c` (or to `False` when none matches), and `orig_jointcaller` set to
the whole list `js`. -/
theorem jointcaller_partition_assignment (d : Data) (dv : PyVal)
    (cs js : List String) (out : List Data)
    (hslot : dictGet d.algorithm "variantcaller" = some (.vlist cs))
    (htr : d.align_bam.truthy = true)
    (hjs : jcallersOf d = js) (hne : js ≠ [])
    (hout : handle_multiple_callers d "variantcaller" dv = some out) :
    List.Forall₂ (fun c x =>
      dictGet x.algorithm "jointcaller" = some (jointAssign js c) ∧
      dictGet x.algorithm "orig_jointcaller" = some (.vlist js)) cs out := by
  subst hjs
  have hjne : (jcallersOf d).isEmpty = false := by
    cases h : jcallersOf d with
    | nil => exact absurd h hne
    | cons a t => rfl
  have hgv : get_variantcaller d "variantcaller" dv = .vlist cs := by
    rw [get_variantcaller, htr]
    simp [hslot]
  unfold handle_multiple_callers at hout
  rw [hgv] at hout
  cases cs with
  | nil =>
    simp only [List.isEmpty_nil, if_true, Option.some.injEq] at hout
    subst hout
    exact List.Forall₂.nil
  | cons c0 ct =>
    simp only [List.isEmpty_cons, Bool.false_eq_true, if_false] at hout
    by_cases ho : ((dictGet d.algorithm ("orig_" ++ "variantcaller")).getD .vnone).truthy
    · rw [omap_eq_map _ (fun c => { d with algorithm := expandCloneAlg d.algorithm d "variantcaller" c }) _
          (fun c _ => expandClone_eq_of_truthy d "variantcaller" c ho)] at hout
      simp only [Option.some.injEq] at hout
      subst hout
      rw [List.forall₂_map_right_iff, List.forall₂_same]
      intro c _
      exact dictGet_expandCloneAlg_joint _ d c hjne
    · have ho' : ((dictGet d.algorithm ("orig_" ++ "variantcaller")).getD .vnone).truthy = false :=
        Bool.not_eq_true _ ▸ Bool.of_not_eq_true ho
      rw [omap_eq_map _ (fun c => { d with algorithm := expandCloneAlg (dictSet d.algorithm ("orig_" ++ "variantcaller") (.vlist (c0 :: ct))) d "variantcaller" c }) _
          (fun c _ => expandClone_eq_of_slot d "variantcaller" c (.vlist (c0 :: ct)) ho' hslot)] at hout
      simp only [Option.some.injEq] at hout
      subst hout
      rw [List.forall₂_map_right_iff, List.forall₂_same]
      intro c _
      exact dictGet_expandCloneAlg_joint _ d c hjne

/-- C3 witness: with callers `["gatk", "samtools"]` and joint list
`["samtools-joint"]`, the gatk clone gets `jointcaller = False` and the
samtools clone gets `"samtools-joint"`. -/
theorem jointcaller_partition_assignment_witness :
    List.Forall₂ (fun c x =>
      dictGet x.algorithm "jointcaller" = some (jointAssign ["samtools-joint"] c) ∧
      dictGet x.algorithm "orig_jointcaller" = some (.vlist ["samtools-joint"]))
      ["gatk", "samtools"]
      ((handle_multiple_callers c3wData "variantcaller" .vnone).getD []) :=
  jointcaller_partition_assignment c3wData .vnone ["gatk", "samtools"]
    ["samtools-joint"] _ (by decide) (by decide) (by decide) (by decide) (by decide)

/-! ### C7 and C10: the no-caller / precalled path of the combiner -/

theorem combineGroupsAux_single (d : Data) (hh : (workBamOf d).hashable = true) :
    combineGroupsAux [] [d] = some [(combineKey d, [tripleOf d])] := by
  simp [combineGroupsAux, hh, addToGroups]

theorem entriesOfTriple_nocaller (d : Data)
    (hvc : (get_variantcaller d "variantcaller" (.vstr "gatk")).truthy = false)
    (hjc : ((dictGet d.algorithm "jointcaller").getD .vnone).truthy = false) :
    entriesOfTriple (tripleOf d) = [precalledEntry d] := by
  simp [entriesOfTriple, tripleOf, hvc, hjc]

theorem combine_single_nocaller (d : Data)
    (hvc : (get_variantcaller d "variantcaller" (.vstr "gatk")).truthy = false)
    (hjc : ((dictGet d.algorithm "jointcaller").getD .vnone).truthy = false)
    (hh : (workBamOf d).hashable = true) :
    combine_multiple_callers [d] =
      some [stripTransient { d with variants := some [precalledEntry d] }] := by
  unfold combine_multiple_callers
  rw [combineGroupsAux_single d hh]
  have hready : readyCallsOf [tripleOf d] = [precalledEntry d] := by
    unfold readyCallsOf
    rw [List.flatMap_cons, entriesOfTriple_nocaller d hvc hjc]
    rfl
  have hfin : finalizeGroup [tripleOf d] =
      some (stripTransient { d with variants := some [precalledEntry d] }) := by
    unfold finalizeGroup
    rw [hready]
    rfl
  simp [omap, hfin]

/-- C10 counterexample: a record with falsy `align_bam` but a configured
joint caller is classified as a joint-caller entry (`"gj"`), not as
`"precalled"` — the combiner reads `jointcaller` directly from the
configuration, bypassing `get_variantcaller`. -/
theorem falsy_align_bam_jointcaller_cex :
    get_variantcaller c10cData "variantcaller" (.vstr "gatk") = .vnone ∧
    (combine_multiple_callers [c10cData]).map
        (List.map (fun f => (f.variants.getD []).map (fun e => dictGet e "variantcaller"))) =
      some [[some (PyVal.vstr "gj")]] ∧
    PyVal.vstr "gj" ≠ PyVal.vstr "precalled" := by decide

/-- C10 amended: a record with falsy `align_bam` has no variant caller
anywhere (`get_variantcaller` is `None` for every key and default, and
`handle_multiple_callers` expands it to nothing), and the combiner files
it as a `"precalled"` entry provided its `jointcaller` configuration is
also falsy. -/
theorem falsy_align_bam_no_caller (d : Data) (h : d.align_bam.truthy = false) :
    (∀ key dv, get_variantcaller d key dv = .vnone) ∧
    (∀ key dv, handle_multiple_callers d key dv = some []) ∧
    (((dictGet d.algorithm "jointcaller").getD .vnone).truthy = false →
      (workBamOf d).hashable = true →
      combine_multiple_callers [d] =
        some [stripTransient { d with variants := some [precalledEntry d] }]) := by
  have hgv : ∀ key dv, get_variantcaller d key dv = .vnone := by
    intro key dv
    simp [get_variantcaller, h]
  refine ⟨hgv, ?_, ?_⟩
  · intro key dv
    unfold handle_multiple_callers
    rw [hgv]
  · intro hjc hh
    exact combine_single_nocaller d (by rw [hgv]; rfl) hjc hh

/-- C10 witness at a concrete record with `align_bam` absent. -/
theorem falsy_align_bam_no_caller_witness :
    get_variantcaller c10wData "variantcaller" (.vstr "gatk") = .vnone ∧
    handle_multiple_callers c10wData "variantcaller" (.vstr "gatk") = some [] ∧
    combine_multiple_callers [c10wData] =
      some [stripTransient { c10wData with variants := some [precalledEntry c10wData] }] :=
  ⟨(falsy_align_bam_no_caller c10wData (by decide)).1 "variantcaller" (.vstr "gatk"),
   (falsy_align_bam_no_caller c10wData (by decide)).2.1 "variantcaller" (.vstr "gatk"),
   (falsy_align_bam_no_caller c10wData (by decide)).2.2 (by decide) (by decide)⟩

/-- C7: a record with neither a variant caller nor a joint caller set
contributes exactly one `"precalled"` entry, carrying the record's
`vrn_file` and `do_upload = False`; a lone such record yields exactly
that one `variants` entry. -/
theorem precalled_fallback_entry (d : Data)
    (hvc : (get_variantcaller d "variantcaller" (.vstr "gatk")).truthy = false)
    (hjc : ((dictGet d.algorithm "jointcaller").getD .vnone).truthy = false) :
    entriesOfTriple (tripleOf d) = [precalledEntry d] ∧
    dictGet (precalledEntry d) "variantcaller" = some (.vstr "precalled") ∧
    dictGet (precalledEntry d) "vrn_file" = some (optToPy d.vrn_file) ∧
    dictGet (precalledEntry d) "do_upload" = some .vfalse ∧
    ((workBamOf d).hashable = true →
      combine_multiple_callers [d] =
        some [stripTransient { d with variants := some [precalledEntry d] }]) := by
  refine ⟨entriesOfTriple_nocaller d hvc hjc, ?_, ?_, ?_, ?_⟩
  · rfl
  · simp [precalledEntry, dictGet]
  · simp [precalledEntry, dictGet]
  · intro hh
    exact combine_single_nocaller d hvc hjc hh

/-- Record with an explicit `variantcaller: False`, no joint caller and a
supplied `vrn_file`, for the C7 witness. -/
theorem precalled_fallback_entry_witness :
    entriesOfTriple (tripleOf { align_bam := .bpath "a.bam", algorithm := [("variantcaller", PyVal.vfalse)], vrn_file := some "ext.vcf" }) =
      [precalledEntry { align_bam := .bpath "a.bam", algorithm := [("variantcaller", PyVal.vfalse)], vrn_file := some "ext.vcf" }] ∧
    dictGet (precalledEntry { align_bam := .bpath "a.bam", algorithm := [("variantcaller", PyVal.vfalse)], vrn_file := some "ext.vcf" }) "variantcaller" = some (.vstr "precalled") ∧
    dictGet (precalledEntry { align_bam := .bpath "a.bam", algorithm := [("variantcaller", PyVal.vfalse)], vrn_file := some "ext.vcf" }) "vrn_file" = some (optToPy (some "ext.vcf")) ∧
    dictGet (precalledEntry { align_bam := .bpath "a.bam", algorithm := [("variantcaller", PyVal.vfalse)], vrn_file := some "ext.vcf" }) "do_upload" = some .vfalse ∧
    combine_multiple_callers [{ align_bam := .bpath "a.bam", algorithm := [("variantcaller", PyVal.vfalse)], vrn_file := some "ext.vcf" }] =
      some [stripTransient { ({ align_bam := .bpath "a.bam", algorithm := [("variantcaller", PyVal.vfalse)], vrn_file := some "ext.vcf" } : Data) with variants := some [precalledEntry { align_bam := .bpath "a.bam", algorithm := [("variantcaller", PyVal.vfalse)], vrn_file := some "ext.vcf" }] }] := by
  have h := precalled_fallback_entry { align_bam := .bpath "a.bam", algorithm := [("variantcaller", PyVal.vfalse)], vrn_file := some "ext.vcf" } (by decide) (by decide)
  exact ⟨h.1, h.2.1, h.2.2.1, h.2.2.2.1, h.2.2.2.2 (by decide)⟩

/-! ### C4: grouping-key stability for list versus tuple BAM values -/

theorem collapseFinalize_isSome (c : Data) (t : List Data) :
    ∃ x, collapseFinalize (c :: t) = some x := by
  simp only [collapseFinalize]
  cases hrb : c.region_bams with
  | none => exact ⟨_, rfl⟩
  | some rbs =>
    cases rbs with
    | nil => exact ⟨_, rfl⟩
    | cons xs rest =>
      by_cases hx : xs.length > 1
      · exact ⟨{ { c with region := none, region_bams := none } with work_bam := none }, by simp [hx]⟩
      · exact ⟨{ c with region := none, region_bams := none }, by simp [hx]⟩

theorem addToGroups_same {κ ν : Type} [DecidableEq κ] (k : κ) (v1 v2 : ν) :
    addToGroups k v2 (addToGroups k v1 []) = [(k, [v1, v2])] := by
  simp [addToGroups]

theorem collapseGroupsAux_pair (d1 d2 : Data) (h1 : collapseKeyHashable d1 = true)
    (h2 : collapseKeyHashable d2 = true) (hk : collapseKey d1 = collapseKey d2) :
    collapseGroupsAux [] [d1, d2] = some [(collapseKey d1, [d1, d2])] := by
  unfold collapseGroupsAux
  rw [h1]
  simp only [if_true]
  unfold collapseGroupsAux
  rw [h2]
  simp only [if_true]
  unfold collapseGroupsAux
  rw [← hk, addToGroups_same]

/-- C4 counterexample: two records identical except for a list- versus
tuple-valued `align_bam`.  The collapser assigns both the same key and one
group, but `combine_multiple_callers` raises (`none`) on the list value
instead of grouping them — the claimed key parity fails for the combiner. -/
theorem combine_group_key_list_tuple_cex :
    collapseKey { c4Base with align_bam := .blist ["a.bam", "b.bam"] } =
      collapseKey { c4Base with align_bam := .btup ["a.bam", "b.bam"] } ∧
    (collapse_by_bam_variantcaller
        [{ c4Base with align_bam := .blist ["a.bam", "b.bam"] },
         { c4Base with align_bam := .btup ["a.bam", "b.bam"] }]).map List.length = some 1 ∧
    combine_multiple_callers
        [{ c4Base with align_bam := .blist ["a.bam", "b.bam"] },
         { c4Base with align_bam := .btup ["a.bam", "b.bam"] }] = none := by decide

/-- C4 amended: `_collapse_by_bam_variantcaller` normalizes a list BAM to
a tuple, so the two records share a collapse key and land in one group;
`combine_multiple_callers` performs no such normalization and fails with
`TypeError` (modelled `none`) as soon as a list-valued work BAM enters its
group key. -/
theorem collapse_group_key_list_tuple_stable (d : Data) (ps : List String)
    (hvc : collapseKeyHashable { d with align_bam := BamVal.blist ps, combine_work_bam_out := none } = true) :
    collapseKey { d with align_bam := BamVal.blist ps, combine_work_bam_out := none } =
      collapseKey { d with align_bam := BamVal.btup ps, combine_work_bam_out := none } ∧
    (collapse_by_bam_variantcaller
        [{ d with align_bam := BamVal.blist ps, combine_work_bam_out := none },
         { d with align_bam := BamVal.btup ps, combine_work_bam_out := none }]).map List.length = some 1 ∧
    combine_multiple_callers
        [{ d with align_bam := BamVal.blist ps, combine_work_bam_out := none },
         { d with align_bam := BamVal.btup ps, combine_work_bam_out := none }] = none := by
  refine ⟨rfl, ?_, rfl⟩
  have hvc2 : collapseKeyHashable { d with align_bam := BamVal.btup ps, combine_work_bam_out := none } = true := hvc
  have hgrp := collapseGroupsAux_pair
    { d with align_bam := BamVal.blist ps, combine_work_bam_out := none }
    { d with align_bam := BamVal.btup ps, combine_work_bam_out := none }
    hvc hvc2 rfl
  unfold collapse_by_bam_variantcaller
  rw [hgrp]
  obtain ⟨x, hx⟩ := collapseFinalize_isSome
    { d with align_bam := BamVal.blist ps, combine_work_bam_out := none }
    [{ d with align_bam := BamVal.btup ps, combine_work_bam_out := none }]
  simp [omap, hx]

/-- C4 witness: the amended statement at the concrete two-path BAM. -/
theorem collapse_group_key_list_tuple_stable_witness :
    collapseKey { c4Base with align_bam := BamVal.blist ["a.bam", "b.bam"], combine_work_bam_out := none } =
      collapseKey { c4Base with align_bam := BamVal.btup ["a.bam", "b.bam"], combine_work_bam_out := none } ∧
    (collapse_by_bam_variantcaller
        [{ c4Base with align_bam := BamVal.blist ["a.bam", "b.bam"], combine_work_bam_out := none },
         { c4Base with align_bam := BamVal.btup ["a.bam", "b.bam"], combine_work_bam_out := none }]).map List.length = some 1 ∧
    combine_multiple_callers
        [{ c4Base with align_bam := BamVal.blist ["a.bam", "b.bam"], combine_work_bam_out := none },
         { c4Base with align_bam := BamVal.btup ["a.bam", "b.bam"], combine_work_bam_out := none }] = none :=
  collapse_group_key_list_tuple_stable c4Base ["a.bam", "b.bam"] (by decide)

/-! ### C8: idempotent skip of the samtools caller adapter -/

/-- C8: when the output file already exists, `shared_variantcall` performs
no indexing, no region subsetting, no empty-VCF writing and no caller
invocation — only the annotation step — and any successful invocation
returns the same annotated path, so re-invocation after the output was
produced is idempotent. -/
theorem shared_variantcall_idempotent_skip (fs : String → Bool) (cfg : SamCfg)
    (subsetFn : Option String → Option String → String → TargetRegions)
    (annFn : String → String) (isPaired : Bool) (alignBams : List String)
    (regionOpt : Option String) (outFile : String)
    (h : fs outFile = true) :
    shared_variantcall fs cfg subsetFn annFn isPaired alignBams regionOpt (some outFile) =
      some ([SamEffect.annotate outFile], annFn outFile) ∧
    (∀ (fs' : String → Bool) (res : List SamEffect × String),
      shared_variantcall fs' cfg subsetFn annFn isPaired alignBams regionOpt (some outFile) =
        some res → res.2 = annFn outFile) := by
  constructor
  · simp [shared_variantcall, resolveOutFile, h]
  · intro fs' res hres
    by_cases h' : fs' outFile = true
    · simp only [shared_variantcall, resolveOutFile, h', if_true,
        Option.some.injEq] at hres
      rw [← hres]
    · have h'' : fs' outFile = false := by simpa using h'
      cases alignBams with
      | nil => simp [shared_variantcall, resolveOutFile, h''] at hres
      | cons b bs =>
        simp only [shared_variantcall, resolveOutFile, h'', Bool.false_eq_true,
          if_false, Option.some.injEq] at hres
        rw [← hres]

/-- C8 witness: a concrete invocation whose output already exists. -/
theorem shared_variantcall_idempotent_skip_witness :
    shared_variantcall (fun p => p == "out.vcf.gz") {} (fun _ _ _ => TargetRegions.trOther)
        (fun p => p ++ "-ann.vcf.gz") false ["a.bam"] none (some "out.vcf.gz") =
      some ([SamEffect.annotate "out.vcf.gz"], "out.vcf.gz-ann.vcf.gz") ∧
    ((fun p => p == "out.vcf.gz") "out.vcf.gz" = true) :=
  ⟨(shared_variantcall_idempotent_skip (fun p => p == "out.vcf.gz") {}
      (fun _ _ _ => TargetRegions.trOther) (fun p => p ++ "-ann.vcf.gz") false
      ["a.bam"] none "out.vcf.gz" (by decide)).1, by decide⟩

/-! ### C9: the samtools version floor -/

/-- C9 counterexample: samtools version `"0.2"` is below 1.0 (the floor
the claim names), yet the version gate does not reject it — the code's
floor is `<= 0.1.19`, not `< 1.0`. -/
theorem samtools_version_floor_cex :
    looseVersionLT "0.2" "1.0" = true ∧
    exceptIsOk (call_variants_samtools (fun _ => false) "samtools" "bcftools"
      "0.2" "1.1" (fun r => r) ["a.bam"] "ref.fa" none "out.vcf.gz") = true := by decide

/-- C9 amended: a samtools version at or below `0.1.19` makes
`_call_variants_samtools` fail with the fatal version error before any
command is run, and any version above `0.1.19` passes the gate and spawns
the calling pipeline (no version error). -/
theorem samtools_version_gate (fs : String → Bool) (sp bp sv bv : String)
    (rg : String → String) (bams : List String) (ref : String)
    (tr : Option String) (out : String) :
    (looseVersionLE sv "0.1.19" = true →
      call_variants_samtools fs sp bp sv bv rg bams ref tr out =
        Except.error "samtools calling not supported with pre-1.0 samtools") ∧
    (looseVersionLE sv "0.1.19" = false →
      exceptIsOk (call_variants_samtools fs sp bp sv bv rg bams ref tr out) = true) := by
  constructor
  · intro h
    simp [call_variants_samtools, h]
  · intro h
    simp [call_variants_samtools, h, exceptIsOk]

/-- C9 witness: the gate fires at version `"0.1.18"` and stays silent at
`"1.1"`. -/
theorem samtools_version_gate_witness :
    (call_variants_samtools (fun _ => false) "samtools" "bcftools" "0.1.18" "1.1"
        (fun r => r) ["a.bam"] "ref.fa" none "out.vcf.gz" =
      Except.error "samtools calling not supported with pre-1.0 samtools") ∧
    exceptIsOk (call_variants_samtools (fun _ => false) "samtools" "bcftools" "1.1" "1.1"
        (fun r => r) ["a.bam"] "ref.fa" none "out.vcf.gz") = true :=
  ⟨(samtools_version_gate (fun _ => false) "samtools" "bcftools" "0.1.18" "1.1"
      (fun r => r) ["a.bam"] "ref.fa" none "out.vcf.gz").1 (by decide),
   (samtools_version_gate (fun _ => false) "samtools" "bcftools" "1.1" "1.1"
      (fun r => r) ["a.bam"] "ref.fa" none "out.vcf.gz").2 (by decide)⟩

/-! ### C5: the Region Splitter -/

theorem sep_split_unique (sep : Char) :
    ∀ (a b x y : List Char), a ++ sep :: x = b ++ sep :: y →
      sep ∉ a → sep ∉ b → a = b ∧ x = y := by
  intro a
  induction a with
  | nil =>
    intro b x y h ha hb
    cases b with
    | nil =>
      simp only [List.nil_append, List.cons.injEq] at h
      exact ⟨rfl, h.2⟩
    | cons c bs =>
      simp only [List.nil_append, List.cons_append, List.cons.injEq] at h
      exact absurd (by rw [h.1]; exact List.mem_cons_self c bs) hb
  | cons c as ih =>
    intro b x y h ha hb
    cases b with
    | nil =>
      simp only [List.cons_append, List.nil_append, List.cons.injEq] at h
      exact absurd (by rw [← h.1]; exact List.mem_cons_self c as) ha
    | cons c' bs =>
      simp only [List.cons_append, List.cons.injEq] at h
      obtain ⟨hc, ht⟩ := h
      have ha' : sep ∉ as := fun hm => ha (List.mem_cons_of_mem c hm)
      have hb' : sep ∉ bs := fun hm => hb (List.mem_cons_of_mem c' hm)
      obtain ⟨h1, h2⟩ := ih bs x y ht ha' hb'
      exact ⟨by rw [hc, h1], h2⟩

theorem omap_some_of_forall {α β : Type} (f : α → Option β) (P : β → Prop) :
    ∀ l : List α, (∀ x ∈ l, ∃ y, f x = some y ∧ P y) →
      ∃ ys, omap f l = some ys ∧ ys.length = l.length ∧ ∀ y ∈ ys, P y := by
  intro l
  induction l with
  | nil => intro _; exact ⟨[], rfl, rfl, by simp⟩
  | cons x xs ih =>
    intro h
    obtain ⟨y, hy, hPy⟩ := h x (List.mem_cons_self x xs)
    obtain ⟨ys, hys, hlen, hP⟩ := ih (fun z hz => h z (List.mem_cons_of_mem x hz))
    refine ⟨y :: ys, ?_, by simp [hlen], ?_⟩
    · simp [omap, hy, hys]
    · intro z hz
      rcases List.mem_cons.mp hz with h1 | h2
      · exact h1 ▸ hPy
      · exact hP z h2

theorem omapIdxAux_forall {α β : Type} (F : Nat → α → Option β) (P : α → β → Prop) :
    ∀ (l : List α) (i : Nat),
      (∀ j x, l.get? j = some x → ∃ u, F (i + j) x = some u ∧ P x u) →
      ∃ parts, omapIdxAux F i l = some parts ∧ List.Forall₂ P l parts := by
  intro l
  induction l with
  | nil => intro i _; exact ⟨[], rfl, List.Forall₂.nil⟩
  | cons x xs ih =>
    intro i h
    obtain ⟨u, hu, hPu⟩ := h 0 x rfl
    rw [Nat.add_zero] at hu
    obtain ⟨parts, hparts, hF⟩ := ih (i + 1) (fun j x' hj => by
      obtain ⟨u', hu', hP'⟩ := h (j + 1) x' hj
      exact ⟨u', by rw [show i + 1 + j = i + (j + 1) by omega]; exact hu', hP'⟩)
    refine ⟨u :: parts, ?_, List.Forall₂.cons hPu hF⟩
    simp [omapIdxAux, hu, hparts]

theorem splitRegionUnit_some (fs : String → Bool) (outDir name ext : String)
    (rbs : List (List String)) (i n : Nat) (r : Region)
    (hlen : ∀ xs ∈ rbs, xs.length = 1 ∨ xs.length = n)
    (hex : ∀ xs ∈ rbs, ∀ b ∈ xs, fs b = true)
    (hi : i < n) :
    ∃ u, splitRegionUnit fs outDir name ext rbs i r = some u ∧ u.region = r ∧
      u.outFile = pathJoin (pathJoin outDir r.chrom) (name ++ "-" ++ to_safestr r ++ ext) := by
  have hcond : ∀ xs ∈ rbs, ∃ y,
      (if xs.length == 1 then xs.head? else xs.get? i) = some y ∧ fs y = true := by
    intro xs hxs
    by_cases h1 : xs.length = 1
    · obtain ⟨a, ha⟩ := List.length_eq_one.mp h1
      subst ha
      exact ⟨a, by simp, hex _ hxs a (List.mem_cons_self a [])⟩
    · have h2 : xs.length = n := (hlen xs hxs).resolve_left h1
      have hi' : i < xs.length := h2 ▸ hi
      refine ⟨List.get xs ⟨i, hi'⟩, ?_, hex _ hxs _ (List.get_mem xs i hi')⟩
      have hne : (xs.length == 1) = false := by simp [h1]
      rw [hne]
      simp [List.get?_eq_get hi']
  obtain ⟨ys, hys, hlenys, hP⟩ := omap_some_of_forall
    (fun xs => if xs.length == 1 then xs.head? else xs.get? i)
    (fun y => fs y = true) rbs hcond
  refine ⟨⟨r, ys, pathJoin (pathJoin outDir r.chrom) (name ++ "-" ++ to_safestr r ++ ext)⟩, ?_, rfl, rfl⟩
  unfold splitRegionUnit
  rw [hys]
  have hall : ys.all fs = true := by
    rw [List.all_eq_true]
    intro y hy
    exact hP y hy
  simp [hall]

theorem forall₂_outFile_map (g : Region → String) (rs : List Region)
    (parts : List WorkUnit)
    (h : List.Forall₂ (fun r u => u.region = r ∧ u.outFile = g r) rs parts) :
    parts.map WorkUnit.outFile = rs.map g := by
  induction h with
  | nil => rfl
  | cons h1 h2 ih => simp [ih, h1.2]

theorem regionOutPath_data (d : Data) (dirExtFn : Data → String) (name ext : String)
    (rr : Region) :
    (regionOutPath d dirExtFn name ext rr).data =
      d.dirs_work.data ++ '/' :: ((dirExtFn d).data ++ '/' :: (rr.chrom.data ++
        '/' :: (name.data ++ '-' :: (rr.chrom.data ++ '_' :: (rr.start.data ++
        '_' :: (rr.stop.data ++ ext.data)))))) := by
  have d1 : ("/" : String).data = ['/'] := rfl
  have d2 : ("_" : String).data = ['_'] := rfl
  have d3 : ("-" : String).data = ['-'] := rfl
  simp [regionOutPath, pathJoin, to_safestr, String.data_append, d1, d2, d3,
    List.append_assoc]

theorem regionOutPath_inj (d : Data) (dirExtFn : Data → String) (name ext : String)
    (r r' : Region)
    (hc : '/' ∉ r.chrom.data) (hc' : '/' ∉ r'.chrom.data)
    (hs : '_' ∉ r.start.data) (hs' : '_' ∉ r'.start.data)
    (h : regionOutPath d dirExtFn name ext r = regionOutPath d dirExtFn name ext r') :
    r = r' := by
  have hd := congrArg String.data h
  rw [regionOutPath_data, regionOutPath_data] at hd
  have h1 := List.append_cancel_left hd
  injection h1 with _ h2
  have h3 := List.append_cancel_left h2
  injection h3 with _ h4
  obtain ⟨hchrom, h5⟩ := sep_split_unique '/' _ _ _ _ h4 hc hc'
  have h6 := List.append_cancel_left h5
  injection h6 with _ h7
  rw [← hchrom] at h7
  have h8 := List.append_cancel_left h7
  injection h8 with _ h9
  obtain ⟨hstart, h10⟩ := sep_split_unique '_' _ _ _ _ h9 hs hs'
  have hstop := List.append_cancel_right h10
  obtain ⟨c1, s1, t1⟩ := r
  obtain ⟨c2, s2, t2⟩ := r'
  simp only at hchrom hstart hstop
  rw [String.ext hchrom, String.ext hstart, String.ext hstop]

/-- C5 counterexample: a record whose 2-element region list repeats the
same region yields 2 work units whose output paths coincide, so the
claimed pairwise distinctness fails for duplicated region descriptors. -/
theorem split_duplicate_region_paths_collide_cex :
    (_split_by_ready_regions ".vcf.gz" "work_bam" (fun _ => "dir") (fun _ => true) c5cData).map
        (fun p => p.2.map WorkUnit.outFile) =
      some ["w/dir/chr1/s-chr1_1_2.vcf.gz", "w/dir/chr1/s-chr1_1_2.vcf.gz"] ∧
    (c5cData.region.getD []).length = 2 ∧
    ¬ (["w/dir/chr1/s-chr1_1_2.vcf.gz", "w/dir/chr1/s-chr1_1_2.vcf.gz"] : List String).Nodup := by
  refine ⟨?_, by decide, by decide⟩
  rfl

/-- C5 amended: a record without a `region` field yields `(None, [])`; a
record with an n-element region list (well-formed region BAMs, all files
present) yields exactly n work units following the
`<work-dir>/<ext-dir>/<region-name>/<name>-<safestr><ext>` pattern, and
the output paths are pairwise distinct provided the region descriptors
are pairwise distinct and their rendered names avoid the separator
characters (`/` in the region name, `_` in the start coordinate). -/
theorem split_by_ready_regions_units (ext : String) (fileKey : String)
    (dirExtFn : Data → String) (fs : String → Bool) (d : Data)
    (rs : List Region) (rbs : List (List String)) (name : String) :
    (d.region = none → _split_by_ready_regions ext fileKey dirExtFn fs d = some (none, [])) ∧
    (d.region = some rs → splitName d = some name → d.region_bams = some rbs →
     (∀ xs ∈ rbs, xs.length = 1 ∨ xs.length = rs.length) →
     (∀ xs ∈ rbs, ∀ b ∈ xs, fs b = true) →
     ∃ parts,
       _split_by_ready_regions ext fileKey dirExtFn fs d =
         some (some (pathJoin (pathJoin d.dirs_work (dirExtFn d)) (name ++ ext)), parts) ∧
       parts.length = rs.length ∧
       List.Forall₂ (fun r u => u.region = r ∧
         u.outFile = regionOutPath d dirExtFn name ext r) rs parts ∧
       (rs.Nodup →
        (∀ r ∈ rs, '/' ∉ r.chrom.data ∧ '_' ∉ r.start.data) →
        (parts.map WorkUnit.outFile).Nodup)) := by
  constructor
  · intro h
    unfold _split_by_ready_regions
    rw [h]
  · intro hreg hname hrb hlen hex
    have hcond : ∀ (j : Nat) (r : Region), rs.get? j = some r →
        ∃ u, splitRegionUnit fs (pathJoin d.dirs_work (dirExtFn d)) name ext rbs (0 + j) r = some u ∧
          u.region = r ∧ u.outFile = regionOutPath d dirExtFn name ext r := by
      intro j r hj
      have hjlt : j < rs.length := by
        rcases List.get?_eq_some.mp hj with ⟨hlt, _⟩
        exact hlt
      exact splitRegionUnit_some fs (pathJoin d.dirs_work (dirExtFn d)) name ext rbs
        (0 + j) rs.length r hlen hex (by omega)
    obtain ⟨parts, hparts, hF⟩ := omapIdxAux_forall
      (fun i r => splitRegionUnit fs (pathJoin d.dirs_work (dirExtFn d)) name ext rbs i r)
      (fun r u => u.region = r ∧ u.outFile = regionOutPath d dirExtFn name ext r)
      rs 0 hcond
    have hidx : omapIdx (fun i r => splitRegionUnit fs
        (pathJoin d.dirs_work (dirExtFn d)) name ext rbs i r) rs = some parts := hparts
    refine ⟨parts, ?_, hF.length_eq.symm, hF, ?_⟩
    · simp only [_split_by_ready_regions, hreg, hname, hrb, hidx]
    · intro hnd hsep
      rw [forall₂_outFile_map _ _ _ hF]
      refine List.Nodup.map_on ?_ hnd
      intro x hx y hy hxy
      exact regionOutPath_inj d dirExtFn name ext x y
        (hsep x hx).1 (hsep y hy).1 (hsep x hx).2 (hsep y hy).2 hxy

/-- C5 witness: two distinct regions produce the two expected distinct
output paths. -/
theorem split_by_ready_regions_units_witness :
    ∃ parts,
      _split_by_ready_regions ".vcf.gz" "work_bam" (fun _ => "dir") (fun _ => true) c5wData =
        some (some (pathJoin (pathJoin c5wData.dirs_work "dir") ("s" ++ ".vcf.gz")), parts) ∧
      parts.length = ([⟨"chr1", "1", "2"⟩, ⟨"chr2", "10", "50"⟩] : List Region).length ∧
      List.Forall₂ (fun r u => u.region = r ∧
        u.outFile = regionOutPath c5wData (fun _ => "dir") "s" ".vcf.gz" r)
        [⟨"chr1", "1", "2"⟩, ⟨"chr2", "10", "50"⟩] parts ∧
      (parts.map WorkUnit.outFile).Nodup := by
  obtain ⟨parts, h1, h2, h3, h4⟩ :=
    (split_by_ready_regions_units ".vcf.gz" "work_bam" (fun _ => "dir") (fun _ => true)
      c5wData [⟨"chr1", "1", "2"⟩, ⟨"chr2", "10", "50"⟩] [["b.bam"], ["x.bam", "y.bam"]] "s").2
      (by decide) (by decide) (by decide) (by decide) (by decide)
  exact ⟨parts, h1, h2, h3, h4 (by decide) (by decide)⟩

/-! ### C1: ordering of the combined `variants` list -/

theorem expandCloneAlg_no_joint (alg0 : List (String × PyVal)) (d : Data) (c : String)
    (hjs : jcallersOf d = []) :
    expandCloneAlg alg0 d "variantcaller" c = dictSet alg0 "variantcaller" (.vstr c) := by
  simp [expandCloneAlg, hjs]

theorem jcRaw_falsy_of_no_jcallers (d : Data) (htr : d.align_bam.truthy = true)
    (hjs : jcallersOf d = []) :
    ((dictGet d.algorithm "jointcaller").getD .vnone).truthy = false := by
  unfold jcallersOf get_variantcaller at hjs
  rw [htr] at hjs
  simp only [if_true] at hjs
  cases hv : dictGet d.algorithm "jointcaller" with
  | none => rfl
  | some v =>
    rw [hv] at hjs
    cases v with
    | vnone => rfl
    | vfalse => rfl
    | vstr s => simp at hjs
    | vlist l =>
      simp only [Option.getD_some] at hjs
      subst hjs
      rfl

theorem dictGet_vcEntry_variantcaller (vc jc : PyVal) (x : Data) :
    dictGet (vcEntry vc jc x) "variantcaller" = some vc := by
  unfold vcEntry
  by_cases hj : jc.truthy = true
  · simp only [hj, if_true]
    rw [dictGet_dictSet_ne _ _ _ _ (by decide), dictGet_dictSet_ne _ _ _ _ (by decide),
        dictGet_dictSet_ne _ _ _ _ (by decide), dictGet_dictSet_ne _ _ _ _ (by decide),
        dictGet_dictSet_ne _ _ _ _ (by decide), dictGet_dictSet_self]
  · have hj' : jc.truthy = false := by simpa using hj
    simp only [hj', Bool.false_eq_true, if_false]
    rw [dictGet_dictSet_ne _ _ _ _ (by decide), dictGet_dictSet_ne _ _ _ _ (by decide),
        dictGet_dictSet_ne _ _ _ _ (by decide), dictGet_dictSet_ne _ _ _ _ (by decide),
        dictGet_dictSet_self]

theorem flatMap_eq_map {α β : Type} (f : α → List β) (g : α → β) :
    ∀ l : List α, (∀ x ∈ l, f x = [g x]) → l.flatMap f = l.map g := by
  intro l
  induction l with
  | nil => intro _; rfl
  | cons x xs ih =>
    intro h
    rw [List.flatMap_cons, List.map_cons, h x (List.mem_cons_self x xs),
        ih (fun z hz => h z (List.mem_cons_of_mem x hz))]
    rfl

theorem pyIndex_getD (c dflt : String) :
    ∀ (l : List String) (i : Nat), pyIndex c l = some i → l.getD i dflt = c := by
  intro l
  induction l with
  | nil => intro i h; exact absurd h (by simp [pyIndex])
  | cons y ys ih =>
    intro i h
    unfold pyIndex at h
    by_cases hy : y = c
    · simp only [hy, if_true] at h
      injection h with h
      subst h
      exact hy
    · simp only [hy, Bool.false_eq_true, if_false] at h
      cases hp : pyIndex c ys with
      | none => rw [hp] at h; exact absurd h (by simp)
      | some j =>
        rw [hp] at h
        simp only [Option.map_some'] at h
        injection h with h
        subst h
        exact ih j hp

theorem pyIndex_mem (c : String) :
    ∀ l : List String, c ∈ l → ∃ i, pyIndex c l = some i := by
  intro l
  induction l with
  | nil => intro h; simp at h
  | cons y ys ih =>
    intro h
    by_cases hy : y = c
    · exact ⟨0, by simp [pyIndex, hy]⟩
    · have : c ∈ ys := by
        rcases List.mem_cons.mp h with h1 | h2
        · exact absurd h1.symm hy
        · exact h2
      obtain ⟨i, hi⟩ := ih this
      exact ⟨i + 1, by simp [pyIndex, hy, hi]⟩

theorem pyIndex_self_map :
    ∀ cs : List String, cs.Nodup →
      cs.map (fun c => pyIndex c cs) = (List.range cs.length).map some := by
  intro cs
  induction cs with
  | nil => intro _; rfl
  | cons c0 ct ih =>
    intro hnd
    have hnotin : c0 ∉ ct := (List.nodup_cons.mp hnd).1
    have hndt : ct.Nodup := (List.nodup_cons.mp hnd).2
    have hh : pyIndex c0 (c0 :: ct) = some 0 := by simp [pyIndex]
    have ht : ∀ c ∈ ct, pyIndex c (c0 :: ct) = (pyIndex c ct).map (· + 1) := by
      intro c hc
      have : c0 ≠ c := fun he => hnotin (he ▸ hc)
      simp [pyIndex, this]
    rw [List.map_cons, hh]
    have : ct.map (fun c => pyIndex c (c0 :: ct)) =
        (ct.map (fun c => pyIndex c ct)).map (Option.map (· + 1)) := by
      rw [List.map_map]
      exact List.map_congr_left (fun c hc => by simp [ht c hc])
    rw [this, ih hndt, List.map_map]
    have hr := List.range_succ_eq_map ct.length
    rw [List.length_cons, hr, List.map_cons, List.map_map]
    rfl

theorem map_getD_range {α β : Type} (f : α → β) (dflt : α) :
    ∀ l : List α, (List.range l.length).map (fun j => f (l.getD j dflt)) = l.map f := by
  intro l
  induction l with
  | nil => rfl
  | cons x xs ih =>
    rw [List.length_cons, List.range_succ_eq_map, List.map_cons, List.map_cons,
        List.map_map]
    have : ((List.range xs.length).map ((fun j => f ((x :: xs).getD j dflt)) ∘ (· + 1))) =
        (List.range xs.length).map (fun j => f (xs.getD j dflt)) := by
      exact List.map_congr_left (fun j _ => by simp)
    rw [this, ih]
    rfl

theorem list_eq_keyed_of_fst {α : Type} (E : Nat → α) :
    ∀ (L : List (Nat × α)) (ks : List Nat), L.map Prod.fst = ks →
      (∀ p ∈ L, p.2 = E p.1) → L = ks.map (fun k => (k, E k)) := by
  intro L
  induction L with
  | nil =>
    intro ks h _
    rw [← h]
    rfl
  | cons p ps ih =>
    intro ks h hP
    cases ks with
    | nil => simp at h
    | cons k kt =>
      simp only [List.map_cons, List.cons.injEq] at h
      obtain ⟨h1, h2⟩ := h
      rw [List.map_cons, ← ih kt h2 (fun q hq => hP q (List.mem_cons_of_mem p hq))]
      have hp2 := hP p (List.mem_cons_self p ps)
      have : p = (k, E k) := by
        obtain ⟨pf, ps'⟩ := p
        simp only at hp2 h1
        rw [← h1, hp2]
      rw [this]

theorem combineGroupsAux_const_key (k : Option String × BamVal) :
    ∀ (l : List Data) (vs : List (PyVal × PyVal × Data)),
      (∀ x ∈ l, combineKey x = k ∧ (workBamOf x).hashable = true) →
      combineGroupsAux [(k, vs)] l = some [(k, vs ++ l.map tripleOf)] := by
  intro l
  induction l with
  | nil => intro vs _; simp [combineGroupsAux]
  | cons y ys ih =>
    intro vs h
    obtain ⟨hk, hh⟩ := h y (List.mem_cons_self y ys)
    unfold combineGroupsAux
    rw [hh]
    simp only [if_true]
    have haddy : addToGroups (combineKey y) (tripleOf y) [(k, vs)] =
        [(k, vs ++ [tripleOf y])] := by
      unfold addToGroups
      rw [if_pos hk.symm]
    rw [haddy, ih (vs ++ [tripleOf y]) (fun z hz => h z (List.mem_cons_of_mem y hz))]
    simp

theorem combineGroupsAux_const_key_start (k : Option String × BamVal)
    (x : Data) (xs : List Data)
    (h : ∀ z ∈ x :: xs, combineKey z = k ∧ (workBamOf z).hashable = true) :
    combineGroupsAux [] (x :: xs) = some [(k, (x :: xs).map tripleOf)] := by
  obtain ⟨hk, hh⟩ := h x (List.mem_cons_self x xs)
  unfold combineGroupsAux
  rw [hh]
  simp only [if_true]
  have : addToGroups (combineKey x) (tripleOf x) [] = [(k, [tripleOf x])] := by
    unfold addToGroups
    rw [hk]
  rw [this, combineGroupsAux_const_key k xs [tripleOf x]
    (fun z hz => h z (List.mem_cons_of_mem x hz))]
  rfl

theorem entriesOfTriple_vconly (vc jc : PyVal) (x : Data)
    (hv : vc.truthy = true) (hj : jc.truthy = false) :
    entriesOfTriple (vc, jc, x) = [vcEntry vc jc x] := by
  simp [entriesOfTriple, hv, hj]

theorem clones_eq_map (d : Data) (cs : List String) (dv : PyVal) (clones : List Data)
    (hslot : dictGet d.algorithm "variantcaller" = some (.vlist cs))
    (hne : cs ≠ [])
    (htr : d.align_bam.truthy = true)
    (horig : ((dictGet d.algorithm "orig_variantcaller").getD .vnone).truthy = false)
    (hjs : jcallersOf d = [])
    (hexp : handle_multiple_callers d "variantcaller" dv = some clones) :
    clones = cs.map (expandedClone d cs) := by
  have hgv : get_variantcaller d "variantcaller" dv = .vlist cs := by
    rw [get_variantcaller, htr]
    simp [hslot]
  unfold handle_multiple_callers at hexp
  rw [hgv] at hexp
  have hle : cs.isEmpty = false := by
    cases cs with
    | nil => exact absurd rfl hne
    | cons a t => rfl
  simp only [hle, Bool.false_eq_true, if_false] at hexp
  have horig' : ((dictGet d.algorithm ("orig_" ++ "variantcaller")).getD .vnone).truthy = false := horig
  have hmap : omap (expandClone d "variantcaller") cs = some (cs.map (expandedClone d cs)) := by
    apply omap_eq_map
    intro c _
    rw [expandClone_eq_of_slot d "variantcaller" c (.vlist cs) horig' hslot,
        expandCloneAlg_no_joint _ d c hjs]
    rfl
  rw [hmap] at hexp
  exact (Option.some.inj hexp).symm

theorem expandedClone_alg_vc (d : Data) (cs : List String) (c : String) :
    dictGet (expandedClone d cs c).algorithm "variantcaller" = some (.vstr c) :=
  dictGet_dictSet_self _ _ _

theorem callerOf_expandedClone (d : Data) (cs : List String) (c : String) :
    callerOf (expandedClone d cs c) = c := by
  unfold callerOf
  rw [expandedClone_alg_vc]

theorem expandedClone_alg_orig (d : Data) (cs : List String) (c : String) :
    dictGet (expandedClone d cs c).algorithm "orig_variantcaller" = some (.vlist cs) := by
  show dictGet (dictSet (dictSet d.algorithm "orig_variantcaller" (.vlist cs)) "variantcaller" (.vstr c)) "orig_variantcaller" = some (.vlist cs)
  rw [dictGet_dictSet_ne _ _ _ _ (by decide), dictGet_dictSet_self]

theorem expandedClone_alg_jc (d : Data) (cs : List String) (c : String) :
    dictGet (expandedClone d cs c).algorithm "jointcaller" = dictGet d.algorithm "jointcaller" := by
  show dictGet (dictSet (dictSet d.algorithm "orig_variantcaller" (.vlist cs)) "variantcaller" (.vstr c)) "jointcaller" = _
  rw [dictGet_dictSet_ne _ _ _ _ (by decide), dictGet_dictSet_ne _ _ _ _ (by decide)]

theorem tripleOf_expandedClone (d : Data) (cs : List String) (c : String)
    (htr : d.align_bam.truthy = true) :
    tripleOf (expandedClone d cs c) =
      (.vstr c, (dictGet d.algorithm "jointcaller").getD .vnone, expandedClone d cs c) := by
  unfold tripleOf
  have hab : (expandedClone d cs c).align_bam = d.align_bam := rfl
  have hgv : get_variantcaller (expandedClone d cs c) "variantcaller" (.vstr "gatk") = .vstr c := by
    unfold get_variantcaller
    rw [hab, htr]
    simp [expandedClone_alg_vc]
  rw [hgv, expandedClone_alg_jc]

theorem dictGet_cloneEntry_vc (d x : Data) :
    dictGet (cloneEntry d x) "variantcaller" = some (.vstr (callerOf x)) :=
  dictGet_vcEntry_variantcaller _ _ _

theorem entryKey_cloneEntry (d x : Data) (cs : List String) :
    entryKey cs (cloneEntry d x) = (pyIndex (callerOf x) cs).getD 0 := by
  unfold entryKey
  rw [dictGet_cloneEntry_vc]

theorem finalizeGroup_sorted (t0 : PyVal × PyVal × Data)
    (rest : List (PyVal × PyVal × Data))
    (keyed : List (Nat × List (String × PyVal)))
    (hclen : decide ((readyCallsOf (t0 :: rest)).length > 1) = true
)
    (hos : (dictGet t0.2.2.algorithm "orig_variantcaller").isSome = true)
    (hkm : omap (fun e => (origOrderKey t0.2.2.algorithm e).map (fun k => (k, e)))
      (readyCallsOf (t0 :: rest)) = some keyed) :
    ∃ fin, finalizeGroup (t0 :: rest) = some fin ∧
      fin.variants = some ((List.insertionSort pairLe keyed).map (·.2)) := by
  simp only [finalizeGroup]
  rw [hclen, hos]
  simp only [Bool.and_self, if_true]
  rw [hkm]
  exact ⟨_, rfl, rfl⟩

theorem finalizeGroup_unsorted (t0 : PyVal × PyVal × Data)
    (rest : List (PyVal × PyVal × Data))
    (hc : (decide ((readyCallsOf (t0 :: rest)).length > 1) &&
      (dictGet t0.2.2.algorithm "orig_variantcaller").isSome) = false) :
    ∃ fin, finalizeGroup (t0 :: rest) = some fin ∧
      fin.variants = some (readyCallsOf (t0 :: rest)) := by
  simp only [finalizeGroup]
  rw [hc]
  simp only [Bool.false_eq_true, if_false]
  exact ⟨_, rfl, rfl⟩

theorem combine_single_group (samples : List Data) (k : Option String × BamVal)
    (fin : Data)
    (hg : combineGroupsAux [] samples = some [(k, samples.map tripleOf)])
    (hfin : finalizeGroup (samples.map tripleOf) = some fin) :
    combine_multiple_callers samples = some [fin] := by
  unfold combine_multiple_callers
  rw [hg]
  simp [omap, hfin]

/-- C1 counterexample: callers `["a", "b"]` with joint caller `"b-j"`.
After expansion, feeding the combiner the expanded records in reversed
order yields `variants` caller order `[b-j, a, b]` — the joint entry is
sorted by its own (joint-list) index and lands between the callers, not
after them, and the order is not `[a, b, b-j]` as the claim requires. -/
theorem combine_interleaves_jointcallers_cex :
    (handle_multiple_callers c1cData "variantcaller" .vnone).map List.length = some 2 ∧
    ((handle_multiple_callers c1cData "variantcaller" .vnone).bind
        (fun cs => combine_multiple_callers cs.reverse)).map
        (List.map (fun f => (f.variants.getD []).map (fun e => dictGet e "variantcaller"))) =
      some [[some (PyVal.vstr "b-j"), some (PyVal.vstr "a"), some (PyVal.vstr "b")]] ∧
    [some (PyVal.vstr "b-j"), some (PyVal.vstr "a"), some (PyVal.vstr "b")] ≠
      [some (PyVal.vstr "a"), some (PyVal.vstr "b"), some (PyVal.vstr "b-j")] := by decide

/-- C1 amended: for a sample whose original caller configuration is a
non-empty duplicate-free list `cs` of non-empty identifiers, with no
joint caller configured, a hashable truthy BAM and no pre-existing stash,
expanding with `handle_multiple_callers` and combining ANY permutation of
the expanded records yields a single record whose `variants` caller order
is exactly `cs`.  (With joint callers configured the order interleaves —
see the counterexample.) -/
theorem variants_order_restores_caller_list
    (d : Data) (cs : List String) (dv : PyVal) (clones input : List Data)
    (hslot : dictGet d.algorithm "variantcaller" = some (.vlist cs))
    (hne : cs ≠ []) (hnd : cs.Nodup) (hns : ∀ c ∈ cs, c ≠ "")
    (htr : d.align_bam.truthy = true)
    (hhash : d.align_bam.hashable = true)
    (hcwb : d.combine_work_bam_out = none)
    (horig : ((dictGet d.algorithm "orig_variantcaller").getD .vnone).truthy = false)
    (hjs : jcallersOf d = [])
    (hexp : handle_multiple_callers d "variantcaller" dv = some clones)
    (hperm : input.Perm clones) :
    (combine_multiple_callers input).map
        (List.map (fun f => (f.variants.getD []).map (fun e => dictGet e "variantcaller"))) =
      some [cs.map (fun c => some (PyVal.vstr c))] := by
  have hclones := clones_eq_map d cs dv clones hslot hne htr horig hjs hexp
  subst hclones
  have hmem : ∀ x ∈ input, ∃ c ∈ cs, x = expandedClone d cs c := by
    intro x hx
    obtain ⟨c, hc, he⟩ := List.mem_map.mp (hperm.mem_iff.mp hx)
    exact ⟨c, hc, he.symm⟩
  have hjrf : ((dictGet d.algorithm "jointcaller").getD .vnone).truthy = false :=
    jcRaw_falsy_of_no_jcallers d htr hjs
  have hlen_input : input.length = cs.length := by
    rw [hperm.length_eq, List.length_map]
  obtain ⟨f0, irest, rfl⟩ : ∃ f0 irest, input = f0 :: irest := by
    cases input with
    | nil =>
      exfalso
      cases cs with
      | nil => exact hne rfl
      | cons a t => simp at hlen_input
    | cons a t => exact ⟨a, t, rfl⟩
  have hkeys : ∀ z ∈ f0 :: irest,
      combineKey z = (d.batch, d.align_bam) ∧ (workBamOf z).hashable = true := by
    intro z hz
    obtain ⟨c, _, rfl⟩ := hmem z hz
    refine ⟨?_, ?_⟩
    · unfold combineKey get_batch_for_key workBamOf expandedClone
      simp [hcwb]
    · unfold workBamOf expandedClone
      simp [hcwb, hhash]
  have hgrp := combineGroupsAux_const_key_start (d.batch, d.align_bam) f0 irest hkeys
  have htrip : ∀ x ∈ f0 :: irest,
      tripleOf x = (.vstr (callerOf x), (dictGet d.algorithm "jointcaller").getD .vnone, x) ∧
      callerOf x ∈ cs ∧ (PyVal.vstr (callerOf x)).truthy = true := by
    intro x hx
    obtain ⟨c, hc, rfl⟩ := hmem x hx
    rw [callerOf_expandedClone]
    refine ⟨tripleOf_expandedClone d cs c htr, hc, ?_⟩
    show (!c.isEmpty) = true
    have : c.isEmpty = false := by
      rw [Bool.eq_false_iff]
      intro he
      exact hns c hc ((String.isEmpty_iff c).mp he)
    rw [this]
    rfl
  have hready : readyCallsOf ((f0 :: irest).map tripleOf) =
      (f0 :: irest).map (cloneEntry d) := by
    unfold readyCallsOf
    rw [flatMap_eq_map entriesOfTriple (fun t => vcEntry t.1 t.2.1 t.2.2)
      ((f0 :: irest).map tripleOf) ?_]
    · rw [List.map_map]
      apply List.map_congr_left
      intro x hx
      show vcEntry (tripleOf x).1 (tripleOf x).2.1 (tripleOf x).2.2 = cloneEntry d x
      rw [(htrip x hx).1]
      rfl
    · intro t ht
      obtain ⟨x, hx, het⟩ := List.mem_map.mp ht
      rw [← het, (htrip x hx).1]
      exact entriesOfTriple_vconly _ _ _ (htrip x hx).2.2 hjrf
  have hf0orig : dictGet f0.algorithm "orig_variantcaller" = some (.vlist cs) := by
    obtain ⟨c0, _, he⟩ := hmem f0 (List.mem_cons_self f0 irest)
    rw [he]
    exact expandedClone_alg_orig d cs c0
  have hkeyE : ∀ x ∈ f0 :: irest,
      origOrderKey f0.algorithm (cloneEntry d x) = pyIndex (callerOf x) cs := by
    intro x hx
    obtain ⟨i, hi⟩ := pyIndex_mem (callerOf x) cs (htrip x hx).2.1
    simp only [origOrderKey, dictGet_cloneEntry_vc, hf0orig, hi]
  have hkmap : omap (fun e => (origOrderKey f0.algorithm e).map (fun k => (k, e)))
      ((f0 :: irest).map (cloneEntry d)) =
      some (((f0 :: irest).map (cloneEntry d)).map (fun e => (entryKey cs e, e))) := by
    apply omap_eq_map
    intro e he
    obtain ⟨x, hx, he'⟩ := List.mem_map.mp he
    rw [← he', hkeyE x hx]
    obtain ⟨i, hi⟩ := pyIndex_mem (callerOf x) cs (htrip x hx).2.1
    rw [hi, entryKey_cloneEntry, hi]
    rfl
  -- the canonical entry for sort position j
  have hEEdef : True := trivial
  by_cases hn1 : 1 < cs.length
  · -- sorted branch
    have hclen : decide ((readyCallsOf ((f0 :: irest).map tripleOf)).length > 1) = true := by
      rw [hready, List.length_map, hlen_input]
      exact decide_eq_true hn1
    have hos : (dictGet f0.algorithm "orig_variantcaller").isSome = true := by
      rw [hf0orig]
      rfl
    obtain ⟨fin, hfin, hfvar⟩ := finalizeGroup_sorted (tripleOf f0) (irest.map tripleOf)
      (((f0 :: irest).map (cloneEntry d)).map (fun e => (entryKey cs e, e)))
      hclen hos (by rw [show (tripleOf f0).2.2 = f0 from rfl]; rw [show ((tripleOf f0 :: irest.map tripleOf) : List (PyVal × PyVal × Data)) = (f0 :: irest).map tripleOf from rfl]; rw [hready]; exact hkmap)
    have hcomb := combine_single_group (f0 :: irest) (d.batch, d.align_bam) fin hgrp hfin
    rw [hcomb]
    -- analyze the sorted pair list
    set L := (((f0 :: irest).map (cloneEntry d)).map (fun e => (entryKey cs e, e))) with hL
    have hfstL : L.map Prod.fst =
        (f0 :: irest).map (fun x => (pyIndex (callerOf x) cs).getD 0) := by
      rw [hL, List.map_map, List.map_map]
      apply List.map_congr_left
      intro x _
      show entryKey cs (cloneEntry d x) = _
      rw [entryKey_cloneEntry]
    have hcsrange : (cs.map (expandedClone d cs)).map
        (fun x => (pyIndex (callerOf x) cs).getD 0) = List.range cs.length := by
      rw [List.map_map]
      have h1 : cs.map ((fun x => (pyIndex (callerOf x) cs).getD 0) ∘ expandedClone d cs) =
          cs.map (fun c => (pyIndex c cs).getD 0) := by
        apply List.map_congr_left
        intro c _
        show (pyIndex (callerOf (expandedClone d cs c)) cs).getD 0 = _
        rw [callerOf_expandedClone]
      rw [h1]
      have h2 : cs.map (fun c => (pyIndex c cs).getD 0) =
          (cs.map (fun c => pyIndex c cs)).map (fun o => o.getD 0) := by
        rw [List.map_map]
        rfl
      rw [h2, pyIndex_self_map cs hnd, List.map_map]
      have h3 : ∀ j ∈ List.range cs.length,
          ((fun o => Option.getD o 0) ∘ some) j = j := fun j _ => rfl
      rw [List.map_congr_left h3]
      simp
    have hpermfst : (L.map Prod.fst).Perm (List.range cs.length) := by
      rw [hfstL, ← hcsrange]
      exact hperm.map _
    have hsortp := List.perm_insertionSort pairLe L
    have hfst_sorted : ((List.insertionSort pairLe L).map Prod.fst).Sorted (· ≤ ·) := by
      have hs := List.sorted_insertionSort pairLe L
      rw [List.Sorted, List.pairwise_map]
      exact hs.imp (fun h => h)
    have hfst_eq : (List.insertionSort pairLe L).map Prod.fst = List.range cs.length := by
      refine List.eq_of_perm_of_sorted ((hsortp.map Prod.fst).trans hpermfst)
        hfst_sorted (List.sorted_le_range cs.length)
    have hpoint : ∀ p ∈ List.insertionSort pairLe L,
        p.2 = cloneEntry d (expandedClone d cs (cs.getD p.1 "")) := by
      intro p hp
      have hpL : p ∈ L := hsortp.mem_iff.mp hp
      rw [hL] at hpL
      obtain ⟨e, he, hpe⟩ := List.mem_map.mp hpL
      obtain ⟨x, hx, hex⟩ := List.mem_map.mp he
      obtain ⟨c, hc, hxc⟩ := hmem x hx
      obtain ⟨i, hi⟩ := pyIndex_mem (callerOf x) cs (htrip x hx).2.1
      have hkey : entryKey cs e = i := by
        rw [← hex, entryKey_cloneEntry, hi]
        rfl
      have hgd : cs.getD i "" = callerOf x := pyIndex_getD (callerOf x) "" cs i hi
      rw [← hpe]
      show e = cloneEntry d (expandedClone d cs (cs.getD (entryKey cs e) ""))
      rw [hkey, hgd, ← hex]
      rw [hxc, callerOf_expandedClone]
    have hrecon : List.insertionSort pairLe L =
        (List.range cs.length).map
          (fun j => (j, cloneEntry d (expandedClone d cs (cs.getD j "")))) :=
      list_eq_keyed_of_fst _ _ _ hfst_eq hpoint
    simp only [Option.map_some', List.map_cons, List.map_nil]
    rw [hfvar]
    simp only [Option.getD_some]
    rw [hrecon, List.map_map, List.map_map]
    simp only [Option.some.injEq, List.cons.injEq, and_true]
    rw [← map_getD_range (fun c => some (PyVal.vstr c)) "" cs]
    apply List.map_congr_left
    intro j _
    show dictGet (cloneEntry d (expandedClone d cs (cs.getD j ""))) "variantcaller" = _
    rw [dictGet_cloneEntry_vc, callerOf_expandedClone]
  · -- single-caller branch: no sorting happens
    have hn1' : cs.length = 1 := by
      cases cs with
      | nil => exact absurd rfl hne
      | cons a t =>
        cases t with
        | nil => rfl
        | cons b u => exfalso; exact hn1 (by simp)
    have hirest : irest = [] := by
      have : irest.length = 0 := by
        have := hlen_input
        rw [hn1'] at this
        simpa using this
      exact List.length_eq_zero.mp this
    subst hirest
    have hclen : decide ((readyCallsOf ((f0 :: ([] : List Data)).map tripleOf)).length > 1) = false := by
      rw [hready]
      rfl
    have hc : (decide ((readyCallsOf (tripleOf f0 :: ([] : List Data).map tripleOf)).length > 1) &&
        (dictGet (tripleOf f0).2.2.algorithm "orig_variantcaller").isSome) = false := by
      rw [show ((tripleOf f0 :: ([] : List Data).map tripleOf) : List (PyVal × PyVal × Data)) = (f0 :: ([] : List Data)).map tripleOf from rfl, hclen]
      rfl
    obtain ⟨fin, hfin, hfvar⟩ := finalizeGroup_unsorted (tripleOf f0) ([].map tripleOf) hc
    have hcomb := combine_single_group (f0 :: []) (d.batch, d.align_bam) fin hgrp hfin
    rw [hcomb]
    rw [show (readyCallsOf (tripleOf f0 :: ([] : List Data).map tripleOf)) = readyCallsOf ((f0 :: ([] : List Data)).map tripleOf) from rfl, hready] at hfvar
    simp only [Option.map_some', List.map_cons, List.map_nil]
    rw [hfvar]
    simp only [Option.getD_some, List.map_cons, List.map_nil]
    obtain ⟨c0, hc0, hf0c⟩ := hmem f0 (List.mem_cons_self f0 [])
    have hcs : cs = [c0] := by
      obtain ⟨a, ha⟩ := List.length_eq_one.mp hn1'
      subst ha
      rcases List.mem_singleton.mp hc0 with h
      rw [h]
    rw [hf0c, dictGet_cloneEntry_vc, callerOf_expandedClone, hcs]
    rfl

/-- C1 witness: the spec's scenario S1 — callers
`["samtools", "freebayes"]`, no joint caller — combined in reversed
completion order still yields the original caller order. -/
theorem variants_order_restores_caller_list_witness :
    (combine_multiple_callers
        ((handle_multiple_callers c1wData "variantcaller" (.vstr "gatk")).getD []).reverse).map
        (List.map (fun f => (f.variants.getD []).map (fun e => dictGet e "variantcaller"))) =
      some [["samtools", "freebayes"].map (fun c => some (PyVal.vstr c))] :=
  variants_order_restores_caller_list c1wData ["samtools", "freebayes"] (.vstr "gatk")
    ((handle_multiple_callers c1wData "variantcaller" (.vstr "gatk")).getD [])
    ((handle_multiple_callers c1wData "variantcaller" (.vstr "gatk")).getD []).reverse
    (by decide) (by decide) (by decide) (by decide) (by decide) (by decide) (by decide)
    (by decide) (by decide) (by decide) (by decide)
